import Mathlib

/-!
# code-contextify: the filter engine, the two directory walks and the report of `src/index.js`

The development embeds `shouldSkipTraversalWithFilters`, `generateTree`, `getAllFiles`,
`formatSize`, `loadGitignore` and `main` of `src/index.js` as Lean functions and proves
properties of them.

* JavaScript strings are lists of characters (`Str`); a character stands for one
  UTF-16 code unit.
* `shouldSkipTraversal` and `shouldSkipContent` come from `./ignore`, which is not part
  of the sources at hand: they are fields of `Config`, arbitrary predicates on paths.
* The matcher of the `ignore` package and the functions of Node's `path` module are
  library code: they are parameters too (`Matcher`, `PathLib`).
* `new RegExp(src).test(s)` is modelled for the fragment of the ECMAScript pattern
  grammar described at `RegExp.step`.
-/

namespace Contextify

/-- A JavaScript string. -/
abbrev Str := List Char

deriving instance DecidableEq for Except

/-! ## Regular expressions (`new RegExp(p).test(s)`, no flags) -/

/-- Abstract syntax of the modelled pattern fragment. Capture groups are not recorded:
`test` only reports whether a match exists. -/
inductive Regex where
  /-- the empty pattern -/
  | eps
  /-- a pattern character -/
  | lit (c : Char)
  /-- the atom `.` -/
  | dot
  /-- a character class `[...]` (`neg` for `[^...]`) as a list of inclusive ranges -/
  | cls (neg : Bool) (ranges : List (Char × Char))
  /-- the assertion `^` -/
  | bol
  /-- the assertion `$` -/
  | eol
  | seq (a b : Regex)
  | alt (a b : Regex)
  | star (a : Regex)
  deriving DecidableEq, Repr

/-- A position of the matcher in the subject: whether it is the start of the subject, and
what is left of the subject. -/
abbrev Pos := Bool × Str

/-- Line terminators, which `.` does not match. -/
def isLineTerminator (c : Char) : Bool :=
  c.toNat ∈ [0x0A, 0x0D, 0x2028, 0x2029]

/-- Whether a class with the given ranges contains `c`. -/
def inRanges (ranges : List (Char × Char)) (c : Char) : Bool :=
  ranges.any fun r => decide (r.1 ≤ c) && decide (c ≤ r.2)

/-- All positions reachable from the positions `acc` by at most `fuel` further iterations
of `f`. -/
def iterate (f : Pos → List Pos) : Nat → List Pos → List Pos
  | 0, acc => acc
  | fuel + 1, acc => acc ++ iterate f fuel (acc.flatMap f)

/-- The positions at which a match of the regular expression that starts at `p` can end. -/
def Regex.run : Regex → Pos → List Pos
  | .eps, p => [p]
  | .lit c, p =>
    match p.2 with
    | x :: t => if x = c then [(false, t)] else []
    | [] => []
  | .dot, p =>
    match p.2 with
    | x :: t => if isLineTerminator x then [] else [(false, t)]
    | [] => []
  | .cls neg ranges, p =>
    match p.2 with
    | x :: t => if inRanges ranges x != neg then [(false, t)] else []
    | [] => []
  | .bol, p => if p.1 then [p] else []
  | .eol, p => if p.2.isEmpty then [p] else []
  | .seq a b, p => (a.run p).flatMap fun q => b.run q
  | .alt a b, p => a.run p ++ b.run p
  | .star a, p => iterate (fun q => a.run q) (p.2.length + 1) [p]

/-- Whether a match starts at the position `(atStart, s)` or at a later one. -/
def Regex.testFrom (r : Regex) : Bool → Str → Bool
  | atStart, [] => !(r.run (atStart, [])).isEmpty
  | atStart, c :: t => !(r.run (atStart, c :: t)).isEmpty || r.testFrom false t

/-- The method `RegExp.prototype.test` of a regular expression without flags: whether the
expression matches somewhere in `s`. -/
def Regex.test (r : Regex) (s : Str) : Bool :=
  r.testFrom true s

/-- Why a pattern was not compiled. -/
inductive RegexError where
  /-- the pattern is not well formed: `new RegExp` throws a `SyntaxError` -/
  | invalid
  /-- the pattern uses a construct outside the modelled fragment -/
  | unsupported
  deriving DecidableEq, Repr

/-- How a term of an alternative may still be followed by a quantifier. -/
inductive Quant where
  /-- an atom: any quantifier may follow -/
  | atom
  /-- a quantified atom: only the lazy marker `?` may follow -/
  | quantified
  /-- an assertion, or a quantifier with its lazy marker: nothing may follow -/
  | closed
  deriving DecidableEq, Repr

/-- A disjunction being read: the alternatives that are complete, and the terms of the
current alternative, the latest first. -/
structure Frame where
  alts : List Regex
  cur : List (Regex × Quant)
  deriving DecidableEq, Repr

/-- The contents of a character class being read. -/
structure ClassAcc where
  neg : Bool
  /-- the ranges that are complete -/
  ranges : List (Char × Char)
  /-- the latest class atom, which a `-` may turn into the start of a range -/
  pending : Option Char
  /-- whether a `-` followed the pending atom -/
  dash : Bool
  deriving DecidableEq, Repr

/-- What the reader is in the middle of. -/
inductive Mode where
  | normal
  /-- just after `(` -/
  | afterOpen
  /-- just after `(?` -/
  | afterOpenQuestion
  /-- just after `\` outside a class -/
  | esc
  /-- just after `[` -/
  | classStart
  /-- inside a class -/
  | inClass (acc : ClassAcc)
  /-- just after `\` inside a class -/
  | classEsc (acc : ClassAcc)
  deriving DecidableEq, Repr

/-- The state of the pattern reader: the enclosing groups (innermost first), the
disjunction being read, and the mode. -/
structure PState where
  stack : List Frame
  top : Frame
  mode : Mode
  deriving DecidableEq, Repr

/-- The terms of an alternative in sequence. -/
def seqOf : List Regex → Regex
  | [] => .eps
  | r :: rs => .seq r (seqOf rs)

/-- The alternatives of a disjunction. -/
def altOf : List Regex → Regex
  | [] => .eps
  | [r] => r
  | r :: rs => .alt r (altOf rs)

/-- The regular expression of a disjunction that has been read to its end. -/
def Frame.close (f : Frame) : Regex :=
  altOf (f.alts ++ [seqOf (f.cur.reverse.map Prod.fst)])

/-- Appends a term to the current alternative. -/
def Frame.push (f : Frame) (r : Regex) (q : Quant) : Frame :=
  { f with cur := (r, q) :: f.cur }

/-- The syntax characters of the pattern grammar, and `/`. -/
def isSyntaxChar (c : Char) : Bool :=
  c ∈ ['^', '$', '\\', '.', '*', '+', '?', '(', ')', '[', ']', '\x7b', '\x7d', '|', '/']

/-- Adds a class atom to a class: it completes a range, or becomes the pending atom. -/
def ClassAcc.addAtom (a : ClassAcc) (x : Char) : Except RegexError ClassAcc :=
  match a.pending, a.dash with
  | some lo, true =>
    if lo ≤ x then .ok { a with ranges := a.ranges ++ [(lo, x)], pending := none, dash := false }
    else .error .invalid
  | some lo, false => .ok { a with ranges := a.ranges ++ [(lo, lo)], pending := some x }
  | none, _ => .ok { a with pending := some x }

/-- The ranges of a class at its closing bracket. -/
def ClassAcc.finish (a : ClassAcc) : List (Char × Char) :=
  match a.pending, a.dash with
  | some lo, true => a.ranges ++ [(lo, lo), ('-', '-')]
  | some lo, false => a.ranges ++ [(lo, lo)]
  | none, _ => a.ranges

/-- Applies the quantifier `q` (one of `*`, `+`, `?`) to the latest term. -/
def Frame.quantify (f : Frame) (q : Char) : Except RegexError Frame :=
  match f.cur with
  | (r, .atom) :: rest =>
    let r' := if q = '*' then Regex.star r
      else if q = '+' then Regex.seq r (Regex.star r)
      else Regex.alt r Regex.eps
    .ok { f with cur := (r', .quantified) :: rest }
  | (r, .quantified) :: rest =>
    if q = '?' then .ok { f with cur := (r, .closed) :: rest } else .error .invalid
  | _ => .error .invalid

/-- Reads one character of a pattern outside a class and outside an escape. -/
def stepNormal (st : PState) (c : Char) : Except RegexError PState :=
  if c = '\\' then .ok { st with mode := .esc }
  else if c = '(' then .ok { stack := st.top :: st.stack, top := ⟨[], []⟩, mode := .afterOpen }
  else if c = ')' then
    match st.stack with
    | [] => .error .invalid
    | f :: fs => .ok { stack := fs, top := f.push st.top.close .atom, mode := .normal }
  else if c = '|' then
    .ok { st with top := ⟨st.top.alts ++ [seqOf (st.top.cur.reverse.map Prod.fst)], []⟩,
                  mode := .normal }
  else if c = '*' ∨ c = '+' ∨ c = '?' then
    (st.top.quantify c).map fun f => { st with top := f, mode := .normal }
  else if c = '[' then .ok { st with mode := .classStart }
  else if c = '^' then .ok { st with top := st.top.push .bol .closed, mode := .normal }
  else if c = '$' then .ok { st with top := st.top.push .eol .closed, mode := .normal }
  else if c = '.' then .ok { st with top := st.top.push .dot .atom, mode := .normal }
  else if c = '\x7b' then .error .unsupported
  else .ok { st with top := st.top.push (.lit c) .atom, mode := .normal }

/-- Reads one character of a class. -/
def stepClass (st : PState) (acc : ClassAcc) (c : Char) : Except RegexError PState :=
  if c = ']' then
    .ok { st with top := st.top.push (.cls acc.neg acc.finish) .atom, mode := .normal }
  else if c = '\\' then .ok { st with mode := .classEsc acc }
  else if c = '-' ∧ acc.pending.isSome ∧ acc.dash = false then
    .ok { st with mode := .inClass { acc with dash := true } }
  else (acc.addAtom c).map fun a => { st with mode := .inClass a }

/-- Reads one character of a pattern. The modelled fragment is: pattern characters, `.`,
`^`, `$`, `|`, groups `( )` and `(?: )`, the quantifiers `*`, `+`, `?` with an optional
lazy marker, classes of characters and ranges, and `\` before a syntax character, `/` or
`-` (inside a class). Braced quantifiers, other escapes and other `(?` groups are
reported as `unsupported`. -/
def RegExp.step (st : PState) (c : Char) : Except RegexError PState :=
  match st.mode with
  | .normal => stepNormal st c
  | .afterOpen =>
    if c = '?' then .ok { st with mode := .afterOpenQuestion } else stepNormal st c
  | .afterOpenQuestion =>
    if c = ':' then .ok { st with mode := .normal } else .error .unsupported
  | .esc =>
    if isSyntaxChar c then .ok { st with top := st.top.push (.lit c) .atom, mode := .normal }
    else .error .unsupported
  | .classStart =>
    if c = '^' then .ok { st with mode := .inClass ⟨true, [], none, false⟩ }
    else stepClass st ⟨false, [], none, false⟩ c
  | .inClass acc => stepClass st acc c
  | .classEsc acc =>
    if isSyntaxChar c ∨ c = '-' then (acc.addAtom c).map fun a => { st with mode := .inClass a }
    else .error .unsupported

/-- The end of the pattern: every group and class must be closed. -/
def RegExp.finish (st : PState) : Except RegexError Regex :=
  match st.mode, st.stack with
  | .normal, [] => .ok st.top.close
  | _, _ => .error .invalid

/-- The constructor `new RegExp(source)`. -/
def RegExp.compile (source : Str) : Except RegexError Regex :=
  (source.foldlM RegExp.step ⟨[], ⟨[], []⟩, .normal⟩).bind RegExp.finish


/-! ## The filter engine -/

/-- The functions of Node's `path` module and of `String` that the program calls; they are
library code, so the development is parametric in them. -/
structure PathLib where
  /-- the function `path.join(dir, item)` -/
  join : Str → Str → Str
  /-- the function `path.relative(from, to)` -/
  relative : Str → Str → Str
  /-- the function `path.extname(p)` -/
  extname : Str → Str
  /-- the method `String.prototype.toLowerCase` -/
  toLowerCase : Str → Str

/-- The matcher of the `ignore` package: `ig.ignores(relativePath)`. -/
abbrev Matcher := Str → Bool

/-- What the filter engine is configured with: the two predicates exported by `./ignore`,
the root given on the command line and the ad hoc filter patterns. -/
structure Config where
  /-- the function `shouldSkipTraversal` of `./ignore` -/
  shouldSkipTraversal : Str → Bool
  /-- the function `shouldSkipContent` of `./ignore` -/
  shouldSkipContent : Str → Bool
  /-- the constant `folderPath` -/
  folderPath : Str
  /-- the constant `additionalFilters` -/
  additionalFilters : List Str

/-- White space as `String.prototype.trim` sees it. -/
def isJsWhitespace (c : Char) : Bool :=
  c.toNat ∈ [0x09, 0x0A, 0x0B, 0x0C, 0x0D, 0x20, 0xA0, 0x1680, 0x2028, 0x2029, 0x202F,
    0x205F, 0x3000, 0xFEFF] || (0x2000 ≤ c.toNat && c.toNat ≤ 0x200A)

/-- The method `String.prototype.trim`. -/
def trim (s : Str) : Str :=
  ((s.dropWhile isJsWhitespace).reverse.dropWhile isJsWhitespace).reverse

/-- The constant `additionalFilters`, computed from the value of the option `--filter`
(`none` when the option is not given): split at commas, each piece trimmed. An empty
option value is falsy and gives no filter. -/
def additionalFiltersOf (filter : Option Str) : List Str :=
  match filter with
  | none => []
  | some [] => []
  | some s => (s.splitOn ',').map trim

/-- The expression `filepath.replace(/\\/g, "/")`. -/
def normalizePath (filepath : Str) : Str :=
  filepath.map fun c => if c = '\\' then '/' else c

/-- The source text of the class `[/\\]`. -/
def sepClass : Str := ['[', '/', '\\', '\\', ']']

/-- The source text of the group `(^|[/\\])`. -/
def leftSource : Str := ['(', '^', '|'] ++ sepClass ++ [')']

/-- The source text of the group `($|[/\\])`. -/
def rightSource : Str := ['(', '$', '|'] ++ sepClass ++ [')']

/-- The source of the regular expression built for an ad hoc pattern:
`pattern.replace(/\//g, "[/\\\\]")` when the pattern includes `/`, and the pattern between
`(^|[/\\])` and `($|[/\\])` otherwise. -/
def regexPattern (pattern : Str) : Str :=
  if '/' ∈ pattern then pattern.flatMap fun c => if c = '/' then sepClass else [c]
  else leftSource ++ pattern ++ rightSource

/-- The callback of `additionalFilters.some`: whether one ad hoc pattern matches the
normalized path. Compiling the pattern may throw. -/
def adHocMatches (pattern normalizedPath : Str) : Except RegexError Bool :=
  (RegExp.compile (regexPattern pattern)).map fun r => r.test normalizedPath

/-- The method `Array.prototype.some` with a callback that may throw: the patterns are
tried in order, up to the first that matches or throws. -/
def someM (f : Str → Except RegexError Bool) : List Str → Except RegexError Bool
  | [] => .ok false
  | p :: ps =>
    match f p with
    | .error e => .error e
    | .ok true => .ok true
    | .ok false => someM f ps

/-- The constant `hasAdditionalFilter` of `shouldSkipTraversalWithFilters`. -/
def hasAdditionalFilter (cfg : Config) (filepath : Str) : Except RegexError Bool :=
  someM (fun pattern => adHocMatches pattern (normalizePath filepath)) cfg.additionalFilters

/-- The function `shouldSkipTraversalWithFilters(filepath, ig)`. -/
def shouldSkipTraversalWithFilters (cfg : Config) (lib : PathLib) (filepath : Str)
    (ig : Matcher) : Except RegexError Bool :=
  if cfg.shouldSkipTraversal filepath then .ok true
  else
    match hasAdditionalFilter cfg filepath with
    | .error e => .error e
    | .ok true => .ok true
    | .ok false =>
      let relativePath := lib.relative cfg.folderPath filepath
      if !relativePath.isEmpty && ig relativePath then .ok true else .ok false

/-! ## The file system and the two walks -/

/-- What `fs.stat` and `fs.readdir` report for a path below the root. -/
inductive Node where
  /-- a regular file: `stats.isFile()` holds, `stats.size` is `size` -/
  | file (size : Nat)
  /-- a directory, with its listing in the order `fs.readdir` returns it -/
  | dir (items : List (Str × Node))
  /-- an entry that is neither a regular file nor a directory (a socket, a device) -/
  | other (size : Nat)
  /-- a directory for which `fs.readdir` fails -/
  | unlistable
  /-- an entry for which `fs.stat` fails (a dangling symbolic link) -/
  | unstatable

/-- Why a walk was aborted. -/
inductive WalkError where
  /-- an ad hoc pattern failed to compile -/
  | pattern (e : RegexError)
  /-- the call `fs.stat(path)` failed -/
  | stat (path : Str)
  /-- the call `fs.readdir(path)` failed -/
  | readdir (path : Str)
  deriving DecidableEq, Repr

/-- An element of the list returned by `getAllFiles`. -/
structure FileEntry where
  path : Str
  size : Nat
  extension : Str
  deriving DecidableEq, Repr

/-- The module-level accumulators `totalFiles`, `totalSize`, `fileTypes` and
`technologies`. -/
structure Totals where
  totalFiles : Nat
  totalSize : Nat
  /-- the object `fileTypes`: extension and count, in insertion order -/
  fileTypes : List (Str × Nat)
  /-- the set `technologies`, in insertion order -/
  technologies : List Str
  deriving DecidableEq, Repr

/-- The statement `fileTypes[ext] = (fileTypes[ext] || 0) + 1`. -/
def bump (ext : Str) : List (Str × Nat) → List (Str × Nat)
  | [] => [(ext, 1)]
  | (k, n) :: rest => if k = ext then (k, n + 1) :: rest else (k, n) :: bump ext rest

/-- The call `technologies.add(label)`. -/
def addLabel (label : Str) (set : List Str) : List Str :=
  if label ∈ set then set else set ++ [label]

/-- The four technology rules of `getAllFiles`. -/
def detect (ext : Str) (technologies : List Str) : List Str :=
  let t1 := if ext ∈ [".ts".toList, ".tsx".toList] then addLabel "TypeScript".toList technologies
    else technologies
  let t2 := if ext ∈ [".jsx".toList, ".tsx".toList] then addLabel "React".toList t1 else t1
  let t3 := if ext = ".vue".toList then addLabel "Vue.js".toList t2 else t2
  if ext = ".py".toList then addLabel "Python".toList t3 else t3

/-- The updates `getAllFiles` makes to the accumulators for one file. -/
def Totals.record (acc : Totals) (ext : Str) (size : Nat) : Totals :=
  { totalFiles := acc.totalFiles + 1
    totalSize := acc.totalSize + size
    fileTypes := bump ext acc.fileTypes
    technologies := detect ext acc.technologies }

/-- The text of a string literal of the program. -/
def connectorLast : Str := "└── ".toList

/-- The connector of an entry that is not the last of its listing. -/
def connectorMid : Str := "├── ".toList

/-- The continuation below the last entry of a listing. -/
def indentLast : Str := "    ".toList

/-- The continuation below an entry that is not the last of its listing. -/
def indentMid : Str := "│   ".toList

/-- The marker of a file whose content is left out. -/
def marker : Str := " ✗".toList

/-- The line `generateTree` writes for a file. -/
def fileLine (cfg : Config) (pfx : Str) (isLast : Bool) (item itemPath : Str) : Str :=
  let connector := if isLast then connectorLast else connectorMid
  let indicator := if !cfg.shouldSkipContent itemPath then [] else marker
  pfx ++ connector ++ item ++ [' '] ++ indicator ++ ['\n']

/-- The line `generateTree` writes for an entry that is not a file. -/
def dirLine (pfx : Str) (isLast : Bool) (item : Str) : Str :=
  let connector := if isLast then connectorLast else connectorMid
  pfx ++ connector ++ item ++ ['/', '\n']

mutual
/-- The function `generateTree(dir, prefix, includedFiles, ig)`; `node` is what the file
system holds at `dir`. The parameter `includedFiles` is never read and is left out. -/
def generateTree (cfg : Config) (lib : PathLib) (ig : Matcher) (dir pfx : Str) :
    Node → Except WalkError Str
  | .dir items => generateTreeLoop cfg lib ig dir pfx items
  | _ => .error (.readdir dir)
/-- The loop of `generateTree` over the items that are left; the current item is the last
one (`i === items.length - 1`) when no item is left after it. -/
def generateTreeLoop (cfg : Config) (lib : PathLib) (ig : Matcher) (dir pfx : Str) :
    List (Str × Node) → Except WalkError Str
  | [] => .ok []
  | (item, child) :: rest =>
    let itemPath := lib.join dir item
    match child with
    | .unstatable => .error (.stat itemPath)
    | .file _ =>
      match shouldSkipTraversalWithFilters cfg lib itemPath ig with
      | .error e => .error (.pattern e)
      | .ok true => generateTreeLoop cfg lib ig dir pfx rest
      | .ok false =>
        match generateTreeLoop cfg lib ig dir pfx rest with
        | .error e => .error e
        | .ok more => .ok (fileLine cfg pfx rest.isEmpty item itemPath ++ more)
    | sub =>
      match shouldSkipTraversalWithFilters cfg lib itemPath ig with
      | .error e => .error (.pattern e)
      | .ok true => generateTreeLoop cfg lib ig dir pfx rest
      | .ok false =>
        let newPrefix := if rest.isEmpty then indentLast else indentMid
        match generateTree cfg lib ig itemPath (pfx ++ newPrefix) sub with
        | .error e => .error e
        | .ok below =>
          match generateTreeLoop cfg lib ig dir pfx rest with
          | .error e => .error e
          | .ok more => .ok (dirLine pfx rest.isEmpty item ++ below ++ more)
end

mutual
/-- The function `getAllFiles(dir, ig)`; `node` is what the file system holds at `dir`,
`acc` the accumulators before the call. -/
def getAllFiles (cfg : Config) (lib : PathLib) (ig : Matcher) (dir : Str) :
    Node → Totals → Except WalkError (List FileEntry × Totals)
  | .dir items, acc => getAllFilesLoop cfg lib ig dir items acc
  | _, _ => .error (.readdir dir)
/-- The loop of `getAllFiles` over the items that are left. -/
def getAllFilesLoop (cfg : Config) (lib : PathLib) (ig : Matcher) (dir : Str) :
    List (Str × Node) → Totals → Except WalkError (List FileEntry × Totals)
  | [], acc => .ok ([], acc)
  | (item, child) :: rest, acc =>
    let fullPath := lib.join dir item
    match shouldSkipTraversalWithFilters cfg lib fullPath ig with
    | .error e => .error (.pattern e)
    | .ok true => getAllFilesLoop cfg lib ig dir rest acc
    | .ok false =>
      match child with
      | .unstatable => .error (.stat fullPath)
      | .dir items =>
        match getAllFiles cfg lib ig fullPath (.dir items) acc with
        | .error e => .error e
        | .ok (subFiles, acc1) =>
          match getAllFilesLoop cfg lib ig dir rest acc1 with
          | .error e => .error e
          | .ok (more, acc2) => .ok (subFiles ++ more, acc2)
      | .unlistable => .error (.readdir fullPath)
      | .file size | .other size =>
        let ext := lib.toLowerCase (lib.extname fullPath)
        let acc1 := acc.record ext size
        let own : List FileEntry :=
          if !cfg.shouldSkipContent fullPath then [⟨fullPath, size, ext⟩] else []
        match getAllFilesLoop cfg lib ig dir rest acc1 with
        | .error e => .error e
        | .ok (more, acc2) => .ok (own ++ more, acc2)
end

/-! ## A model of the `path` module on POSIX systems

The theorems below hold for every `PathLib`. The closed examples need a concrete one: the
POSIX versions of `path.join`, `path.relative` and `path.extname`, with the process
working directory as a parameter. Lower-casing is the identity outside ASCII. -/

/-- The loop of `normalizeString`: the segments kept so far (latest first) while the
segments of a path are read. -/
def normalizeSegments (allowAboveRoot : Bool) : List Str → List Str → List Str
  | [], kept => kept.reverse
  | seg :: rest, kept =>
    if seg = [] ∨ seg = ['.'] then normalizeSegments allowAboveRoot rest kept
    else if seg = ['.', '.'] then
      match kept with
      | [] => normalizeSegments allowAboveRoot rest (if allowAboveRoot then [seg] else [])
      | k :: ks =>
        if k = ['.', '.'] then normalizeSegments allowAboveRoot rest (seg :: kept)
        else normalizeSegments allowAboveRoot rest ks
    else normalizeSegments allowAboveRoot rest (seg :: kept)

/-- The function `path.posix.normalize`. -/
def posixNormalize (p : Str) : Str :=
  if p = [] then ['.']
  else
    let isAbsolute := p.head? = some '/'
    let trailing := p.getLast? = some '/'
    let body := ['/'].intercalate (normalizeSegments (!isAbsolute) (p.splitOn '/') [])
    if body = [] then
      if isAbsolute then ['/'] else if trailing then ['.', '/'] else ['.']
    else
      let body := if trailing then body ++ ['/'] else body
      if isAbsolute then '/' :: body else body

/-- The function `path.posix.join` with two arguments. -/
def posixJoin (a b : Str) : Str :=
  if a = [] then posixNormalize b
  else if b = [] then posixNormalize a
  else posixNormalize (a ++ '/' :: b)

/-- The segments of `path.posix.resolve(p)` below the file system root. -/
def posixResolve (cwd p : Str) : List Str :=
  let full := if p.head? = some '/' then p else cwd ++ '/' :: p
  normalizeSegments false (full.splitOn '/') []

/-- Drops the common leading segments of two resolved paths. -/
def dropCommon : List Str → List Str → List Str × List Str
  | a :: as, b :: bs => if a = b then dropCommon as bs else (a :: as, b :: bs)
  | as, bs => (as, bs)

/-- The function `path.posix.relative`. -/
def posixRelative (cwd start target : Str) : Str :=
  let r := dropCommon (posixResolve cwd start) (posixResolve cwd target)
  ['/'].intercalate (r.1.map (fun _ => ['.', '.']) ++ r.2)

/-- The function `path.posix.extname`. -/
def posixExtname (p : Str) : Str :=
  let trimmed := (p.reverse.dropWhile (· = '/')).reverse
  let base := (trimmed.reverse.takeWhile (· ≠ '/')).reverse
  let ext := '.' :: (base.reverse.takeWhile (· ≠ '.')).reverse
  if '.' ∉ base ∨ base = ['.', '.'] ∨ ext.length = base.length then [] else ext

/-- The `path` module on a POSIX system whose working directory is `cwd`. -/
def posix (cwd : Str) : PathLib where
  join := posixJoin
  relative := posixRelative cwd
  extname := posixExtname
  toLowerCase := fun s => s.map Char.toLower

/-! ## The entries a walk reaches -/

/-- What `fs.stat` says an entry is. -/
inductive Kind where
  | file
  | directory
  | other
  deriving DecidableEq, Repr

/-- The kind `fs.stat` reports for a node. For a node on which `fs.stat` fails the value
is immaterial: a walk that reaches such a node does not return. -/
def Node.kind : Node → Kind
  | .file _ => .file
  | .dir _ => .directory
  | .other _ => .other
  | .unlistable => .directory
  | .unstatable => .other

/-- The size `fs.stat` reports for a node. -/
def Node.size : Node → Nat
  | .file size => size
  | .other size => size
  | _ => 0

/-- An entry of the tree together with where the walk met it. -/
structure Reached where
  /-- the joined path of the entry -/
  path : Str
  /-- the name of the entry in its listing -/
  item : Str
  /-- the indentation of the listing the entry is in -/
  indent : Str
  /-- whether the entry is the last of its listing -/
  isLast : Bool
  kind : Kind
  size : Nat
  /-- the joined paths of the directories the entry lies below, outermost first; the
  root is not among them -/
  above : List Str
  deriving DecidableEq, Repr

/-- The decision `shouldSkipTraversalWithFilters` as a Boolean; an entry for which the
decision throws counts as skipped. -/
def skips (cfg : Config) (lib : PathLib) (ig : Matcher) (path : Str) : Bool :=
  match shouldSkipTraversalWithFilters cfg lib path ig with
  | .ok b => b
  | .error _ => true

mutual
/-- The entries below a node that a walk reaches. -/
def reachedBelow (cfg : Config) (lib : PathLib) (ig : Matcher) (dir indent : Str)
    (above : List Str) : Node → List Reached
  | .dir items => reachedIn cfg lib ig dir indent above items
  | _ => []
/-- The entries of the listing `items` of the directory `dir`, and the entries below
them, that are not traversal-skipped and do not lie below a traversal-skipped entry,
in the order of a depth-first walk. -/
def reachedIn (cfg : Config) (lib : PathLib) (ig : Matcher) (dir indent : Str)
    (above : List Str) : List (Str × Node) → List Reached
  | [] => []
  | (item, child) :: rest =>
    let path := lib.join dir item
    if skips cfg lib ig path then reachedIn cfg lib ig dir indent above rest
    else
      ⟨path, item, indent, rest.isEmpty, child.kind, child.size, above⟩ ::
        (reachedBelow cfg lib ig path (indent ++ if rest.isEmpty then indentLast else indentMid)
            (above ++ [path]) child
          ++ reachedIn cfg lib ig dir indent above rest)
end

/-- The line of the tree text for an entry. -/
def Reached.line (cfg : Config) (e : Reached) : Str :=
  if e.kind = .file then fileLine cfg e.indent e.isLast e.item e.path
  else dirLine e.indent e.isLast e.item

/-- The tree text for a list of entries. -/
def treeText (cfg : Config) (es : List Reached) : Str :=
  (es.map (Reached.line cfg)).flatten

/-- The element of the file list for an entry. -/
def Reached.entry (lib : PathLib) (e : Reached) : FileEntry :=
  ⟨e.path, e.size, lib.toLowerCase (lib.extname e.path)⟩

/-- The entries that are counted as files: those that are not directories. -/
def counted (es : List Reached) : List Reached :=
  es.filter fun e => e.kind ≠ .directory

/-- The file list for a list of entries: the counted entries whose content is kept. -/
def collected (cfg : Config) (lib : PathLib) (es : List Reached) : List FileEntry :=
  ((counted es).filter fun e => !cfg.shouldSkipContent e.path).map (Reached.entry lib)

/-- The accumulators after the counted entries of a list have been recorded. -/
def tally (lib : PathLib) (acc : Totals) (es : List Reached) : Totals :=
  (counted es).foldl (fun a e => a.record (lib.toLowerCase (lib.extname e.path)) e.size) acc

/-- A tree of regular files and directories only. -/
inductive Regular : Node → Prop where
  | file (size : Nat) : Regular (.file size)
  | dir (items : List (Str × Node)) : (∀ p ∈ items, Regular p.2) → Regular (.dir items)

/-! ## Notions used to state the properties -/

/-- The class `[/\\]` as a regular expression. -/
def sepRegex : Regex := .cls false [('/', '/'), ('\\', '\\')]

/-- The regular expression an ad hoc pattern character stands for when it is `/` or not a
syntax character. -/
def atomOf (c : Char) : Regex := if c = '/' then sepRegex else .lit c

/-- The source text of one character of an ad hoc pattern after `replace`. -/
def srcOf (c : Char) : Str := if c = '/' then sepClass else [c]

/-- A character of an ad hoc pattern that stands for itself: `/`, or no syntax character. -/
def plainChar (c : Char) : Prop := c = '/' ∨ isSyntaxChar c = false

/-- The group `(^|[/\\])`. -/
def leftBoundary : Regex := .alt (.seq .bol .eps) (.seq sepRegex .eps)

/-- The group `($|[/\\])`. -/
def rightBoundary : Regex := .alt (.seq .eol .eps) (.seq sepRegex .eps)

/-- The separators of a path: `/` and `\`. -/
def isSep (c : Char) : Bool := c == '/' || c == '\\'

/-- The segments of a path: the pieces between its separators. -/
def segments (path : Str) : List Str := path.splitOnP isSep

/-- The pattern `w` is the first segment of `s`. -/
def SegAt (w s : Str) : Prop :=
  ∃ t, s = w ++ t ∧ (t = [] ∨ ∃ x t', t = x :: t' ∧ isSep x = true)

/-- The pattern `w` is a segment of `s` that follows a separator. -/
def SegIn (w s : Str) : Prop :=
  ∃ pre x t, s = pre ++ x :: t ∧ isSep x = true ∧ SegAt w t

/-- A letter, a digit, an underscore; every character outside ASCII counts as a letter. -/
def isWordChar (c : Char) : Bool :=
  c.isAlphanum || c == '_' || decide (128 ≤ c.toNat)

/-- The expression `fileTypes[ext] || 0`. -/
def countOf (ext : Str) : List (Str × Nat) → Nat
  | [] => 0
  | (k, n) :: rest => if k = ext then n else countOf ext rest

/-- The lower-cased extension `getAllFiles` computes for an entry. -/
def Reached.ext (lib : PathLib) (e : Reached) : Str :=
  lib.toLowerCase (lib.extname e.path)

/-- Every ad hoc pattern of the configuration is accepted by `new RegExp`. -/
def PatternsCompile (cfg : Config) : Prop :=
  ∀ f ∈ cfg.additionalFilters, ∃ r, RegExp.compile (regexPattern f) = .ok r

/-! ## Concrete inputs for the closed statements -/

/-- The `path` module of the examples: POSIX, working directory `/home/user/project`. -/
def exampleLib : PathLib := posix "/home/user/project".toList

/-- A stand-in for `shouldSkipTraversal` of `./ignore`: paths with a segment
`node_modules` or `.git`. -/
def exampleSkipTraversal (p : Str) : Bool :=
  decide ("node_modules".toList ∈ segments p) || decide (".git".toList ∈ segments p)

/-- A stand-in for `shouldSkipContent` of `./ignore`: paths that end in `.png` or
`.lock`. -/
def exampleSkipContent (p : Str) : Bool :=
  ".png".toList.isSuffixOf p || ".lock".toList.isSuffixOf p

/-- The configuration of `contextify . --filter temp,cache`. -/
def exampleConfig : Config where
  shouldSkipTraversal := exampleSkipTraversal
  shouldSkipContent := exampleSkipContent
  folderPath := ".".toList
  additionalFilters := additionalFiltersOf (some "temp,cache".toList)

/-- The configuration of `contextify . --filter "("`: the pattern is not a regular
expression. -/
def brokenConfig : Config where
  shouldSkipTraversal := exampleSkipTraversal
  shouldSkipContent := exampleSkipContent
  folderPath := ".".toList
  additionalFilters := additionalFiltersOf (some "(".toList)

/-- A matcher without rules. -/
def noRules : Matcher := fun _ => false

/-- The matcher of a `.gitignore` with the line `*.log`, as far as the examples go. -/
def logRule : Matcher := fun p => ".log".toList.isSuffixOf p

/-- A listing of the root: a directory `temp`, a file `cache.bin`, a directory `src` with
three files, and a file `debug.log`. -/
def exampleItems : List (Str × Node) :=
  [ ("temp".toList, .dir [("scratch.txt".toList, .file 4)]),
    ("cache.bin".toList, .file 10),
    ("src".toList, .dir [
      ("index.txt".toList, .file 5),
      ("logo.png".toList, .file 7),
      ("node_modules".toList, .dir [("pkg.js".toList, .file 9)])]),
    ("debug.log".toList, .file 3) ]

/-- The accumulators when the program starts. -/
def zeroTotals : Totals := ⟨0, 0, [], []⟩

/-! ## The report: `formatSize`, `loadGitignore` and `main`

Sizes are natural numbers. The quotients `bytes / 1024` and `bytes / (1024 * 1024)` are
exact in binary floating point, and `toFixed` rounds the exact value of its argument, so
`toFixed2` works on the fraction itself. Console output is modelled for `loadGitignore`
only. -/

/-- A decimal digit. -/
def digitChar (d : Nat) : Char := Char.ofNat (48 + d)

/-- The method call `(num / den).toFixed(2)` for a quotient that is represented exactly:
the integer nearest to a hundred times the quotient, the larger one of two, written with
two decimals. -/
def toFixed2 (num den : Nat) : Str :=
  let n := (200 * num + den) / (2 * den)
  Nat.toDigits 10 (n / 100) ++ ['.', digitChar (n % 100 / 10), digitChar (n % 10)]

/-- The function `formatSize(bytes)`. -/
def formatSize (bytes : Nat) : Str :=
  if bytes < 1024 then Nat.toDigits 10 bytes ++ " B".toList
  else if bytes < 1024 * 1024 then toFixed2 bytes 1024 ++ " KB".toList
  else toFixed2 bytes (1024 * 1024) ++ " MB".toList

/-- The error of a failed `fs.readFile`. -/
structure ReadError where
  code : Str
  message : Str
  deriving DecidableEq, Repr

/-- A line written to the console. -/
inductive Console where
  | log (text : Str)
  | warn (text : Str)
  deriving DecidableEq, Repr

/-- An instance of the `ignore` package: the texts given to `add`, in order; `ignore()`
is the empty list. -/
abbrev Rules := List Str

/-- The function `loadGitignore(dir)`; `read` is the outcome of reading `.gitignore` in
`dir`. It returns the instance and what it wrote to the console. -/
def loadGitignore (read : Except ReadError Str) : Rules × List Console :=
  match read with
  | .ok gitignoreContent => ([gitignoreContent], [.log "Loaded .gitignore rules".toList])
  | .error error =>
    if error.code ≠ "ENOENT".toList then
      ([], [.warn ("Warning: Could not read .gitignore: ".toList ++ error.message)])
    else ([], [])

/-- What `main` finds outside the program. -/
structure World where
  /-- what is at `folderPath` (`Node.unstatable` when the path does not exist) -/
  root : Node
  /-- the outcome of reading `.gitignore` in the root -/
  gitignore : Except ReadError Str
  /-- the call `fs.readFile(path, "utf8")` for the files of the tree; `none` when it
  fails -/
  readFile : Str → Option Str
  /-- whether `fs.writeFile(name, data)` succeeds -/
  writeFile : Str → Str → Bool

/-- What a run of `main` does: the call of `fs.writeFile` it makes, if any, and the exit
code of the process. -/
structure Run where
  writeCall : Option (Str × Str)
  exitCode : Nat
  deriving DecidableEq, Repr

/-- The separator line of a content block. -/
def separatorLine : Str :=
  "---------------------------------------------------------\n".toList

/-- The text `main` appends for a file whose content was read. -/
def fileBlock (relPath content : Str) : Str :=
  relPath ++ ['\n'] ++ separatorLine ++ content ++ ['\n'] ++ separatorLine

/-- The report up to the content section: title, statistics, legend, tree. -/
def reportHead (totalFiles totalSize : Nat) (treeStructure : Str) : Str :=
  "Project Overview\n===============\n\n".toList
    ++ "Project Statistics:\n".toList
    ++ ("Total Files: ".toList ++ Nat.toDigits 10 totalFiles ++ ['\n'])
    ++ ("Total Size: ".toList ++ formatSize totalSize ++ ['\n', '\n'])
    ++ "\nFolder Structure (Tree)\n=====================\n".toList
    ++ "Legend: ✗ = Excluded from output\n\n".toList
    ++ treeStructure
    ++ "\n==============\n".toList

/-- The loop of `main` over the collected files: a file whose read fails is passed
over. -/
def appendFiles (cfg : Config) (lib : PathLib) (readFile : Str → Option Str) :
    Str → List FileEntry → Str
  | output, [] => output
  | output, file :: rest =>
    match readFile file.path with
    | some content =>
      appendFiles cfg lib readFile
        (output ++ fileBlock (lib.relative cfg.folderPath file.path) content) rest
    | none => appendFiles cfg lib readFile output rest

/-- The constant `outputFileName`: the second command line argument, or the fixed name
when the argument is missing or empty. -/
def outputFileNameOf (outputName : Option Str) : Str :=
  match outputName with
  | none => "contextify-output.txt".toList
  | some [] => "contextify-output.txt".toList
  | some name => name

/-- The run that ends in the `catch` of `main`: nothing is written, the exit code
is 1. -/
def Run.aborted : Run := ⟨none, 1⟩

/-- The function `main()`. `ignores` is the method `ignores` of the `ignore` package,
`outputName` the second command line argument. -/
def main (cfg : Config) (lib : PathLib) (ignores : Rules → Matcher)
    (outputName : Option Str) (world : World) : Run :=
  match world.root with
  | .unstatable => Run.aborted
  | .file _ => Run.aborted
  | .other _ => Run.aborted
  | root =>
    let ig := ignores (loadGitignore world.gitignore).1
    let outputFileName := outputFileNameOf outputName
    match getAllFiles cfg lib ig cfg.folderPath root ⟨0, 0, [], []⟩ with
    | .error _ => Run.aborted
    | .ok (files, totals) =>
      match generateTree cfg lib ig cfg.folderPath [] root with
      | .error _ => Run.aborted
      | .ok treeStructure =>
        let output := appendFiles cfg lib world.readFile
          (reportHead totals.totalFiles totals.totalSize treeStructure) files
        if world.writeFile outputFileName output then ⟨some (outputFileName, output), 0⟩
        else ⟨some (outputFileName, output), 1⟩

/-- The content section of a report: the blocks of the files whose read succeeds, in
the order of the list. -/
def contentSection (cfg : Config) (lib : PathLib) (readFile : Str → Option Str)
    (files : List FileEntry) : Str :=
  (files.filterMap fun f =>
    (readFile f.path).map (fileBlock (lib.relative cfg.folderPath f.path))).flatten

/-! ## Concrete inputs for the report -/

/-- A stand-in for the method `ignores` of the `ignore` package: a path is ignored when it
ends with the text of a rule after its leading `*`. -/
def exampleIgnores : Rules → Matcher :=
  fun rules p => rules.any fun r => (r.dropWhile (· = '*')).isSuffixOf p

/-- A root with the file `src/index.txt`, the package `node_modules/pkg/file.js` and the
file `debug.log`. -/
def scenarioRoot : Node :=
  .dir [ ("src".toList, .dir [("index.txt".toList, .file 5)]),
    ("node_modules".toList, .dir [("pkg".toList, .dir [("file.js".toList, .file 20)])]),
    ("debug.log".toList, .file 3) ]

/-- The world of the scenario: `.gitignore` holds `*.log`, `src/index.txt` holds
`hello`. -/
def scenarioWorld : World where
  root := scenarioRoot
  gitignore := .ok "*.log".toList
  readFile := fun p => if p = "src/index.txt".toList then some "hello".toList else none
  writeFile := fun _ _ => true

/-- The configuration of `contextify` without arguments. -/
def defaultConfig : Config where
  shouldSkipTraversal := exampleSkipTraversal
  shouldSkipContent := exampleSkipContent
  folderPath := ".".toList
  additionalFilters := additionalFiltersOf none

/-- The configuration of `contextify temp --filter temp`: the root directory is called
`temp`. -/
def tempRootConfig : Config where
  shouldSkipTraversal := exampleSkipTraversal
  shouldSkipContent := exampleSkipContent
  folderPath := "temp".toList
  additionalFilters := additionalFiltersOf (some "temp".toList)

/-! ## Lemmas -/

theorem step_literal (stack : List Frame) (top : Frame) (c : Char)
    (hc : isSyntaxChar c = false) :
    RegExp.step ⟨stack, top, .normal⟩ c = .ok ⟨stack, top.push (.lit c) .atom, .normal⟩ := by
  simp only [isSyntaxChar, List.mem_cons, List.mem_singleton, decide_eq_false_iff_not, not_or,
    List.not_mem_nil, or_false] at hc
  obtain ⟨h1, h2, h3, h4, h5, h6, h7, h8, h9, h10, h11, h12, h13, h14, h15⟩ := hc
  simp [RegExp.step, stepNormal, *]

theorem foldl_sepClass (stack : List Frame) (top : Frame) :
    sepClass.foldlM RegExp.step (⟨stack, top, .normal⟩ : PState)
      = .ok ⟨stack, top.push sepRegex .atom, .normal⟩ := by
  rfl


theorem foldl_srcOf (stack : List Frame) (top : Frame) (c : Char) (hc : plainChar c) :
    (srcOf c).foldlM RegExp.step (⟨stack, top, .normal⟩ : PState)
      = .ok ⟨stack, top.push (atomOf c) .atom, .normal⟩ := by
  by_cases h : c = '/'
  · simp only [srcOf, atomOf, h, if_true]
    exact foldl_sepClass stack top
  · have hs : isSyntaxChar c = false := hc.resolve_left h
    simp only [srcOf, atomOf, h, if_false, List.foldlM_cons, List.foldlM_nil]
    rw [step_literal stack top c hs]
    rfl

theorem foldl_atoms (w : Str) (hw : ∀ c ∈ w, plainChar c) (stack : List Frame) (alts : List Regex)
    (cur : List (Regex × Quant)) :
    (w.flatMap srcOf).foldlM RegExp.step (⟨stack, ⟨alts, cur⟩, .normal⟩ : PState)
      = .ok ⟨stack, ⟨alts, (w.reverse.map fun c => (atomOf c, Quant.atom)) ++ cur⟩, .normal⟩ := by
  induction w generalizing cur with
  | nil => rfl
  | cons c w ih =>
    have hc := hw c (List.mem_cons_self _ _)
    have hw' : ∀ d ∈ w, plainChar d := fun d hd => hw d (List.mem_cons_of_mem _ hd)
    rw [List.flatMap_cons, List.foldlM_append, foldl_srcOf stack _ c hc]
    show (w.flatMap srcOf).foldlM RegExp.step _ = _
    simp only [Frame.push]
    rw [ih hw']
    simp

theorem flatMap_srcOf_of_no_slash (w : Str) (hw : '/' ∉ w) : w.flatMap srcOf = w := by
  induction w with
  | nil => rfl
  | cons c w ih =>
    have hc : c ≠ '/' := fun h => hw (h ▸ List.mem_cons_self _ _)
    have hw' : '/' ∉ w := fun h => hw (List.mem_cons_of_mem _ h)
    simp [List.flatMap_cons, srcOf, hc, ih hw']

theorem map_atomOf_of_no_slash (w : Str) (hw : '/' ∉ w) : w.map atomOf = w.map Regex.lit := by
  apply List.map_congr_left
  intro c hc
  have : c ≠ '/' := fun h => hw (h ▸ hc)
  simp [atomOf, this]

theorem compile_slash (w : Str) (hw : ∀ c ∈ w, plainChar c) :
    RegExp.compile (w.flatMap srcOf) = .ok (seqOf (w.map atomOf)) := by
  unfold RegExp.compile
  rw [foldl_atoms w hw]
  simp [RegExp.finish, Frame.close, altOf, List.map_reverse, Function.comp_def, Except.bind]

theorem compile_segment (w : Str) (hw : ∀ c ∈ w, isSyntaxChar c = false) :
    RegExp.compile (leftSource ++ w ++ rightSource)
      = .ok (seqOf (leftBoundary :: (w.map Regex.lit ++ [rightBoundary]))) := by
  have hslash : '/' ∉ w := fun h => by simpa [isSyntaxChar] using hw _ h
  have hp : ∀ c ∈ w, plainChar c := fun c hc => Or.inr (hw c hc)
  have e1 : leftSource.foldlM RegExp.step (⟨[], ⟨[], []⟩, .normal⟩ : PState)
      = .ok ⟨[], ⟨[], [(leftBoundary, .atom)]⟩, .normal⟩ := rfl
  have e2 := foldl_atoms w hp [] [] [(leftBoundary, .atom)]
  rw [flatMap_srcOf_of_no_slash w hslash] at e2
  have e3 : ∀ cur : List (Regex × Quant),
      rightSource.foldlM RegExp.step (⟨[], ⟨[], cur⟩, .normal⟩ : PState)
        = .ok ⟨[], ⟨[], (rightBoundary, .atom) :: cur⟩, .normal⟩ := fun _ => rfl
  unfold RegExp.compile
  rw [List.foldlM_append, List.foldlM_append, e1]
  show ((w.foldlM RegExp.step _) >>= _) >>= _ = _
  rw [e2]
  simp only [bind, Except.bind]
  rw [e3]
  simp [RegExp.finish, Frame.close, altOf, seqOf, List.map_reverse, Function.comp_def,
    Except.bind, bind, ← map_atomOf_of_no_slash w hslash]

theorem inRanges_sep (x : Char) : inRanges [('/', '/'), ('\\', '\\')] x = isSep x := by
  simp only [inRanges, isSep, List.any_cons, List.any_nil, Bool.or_false]
  have h1 : (decide ('/' ≤ x) && decide (x ≤ '/')) = (x == '/') := by
    rw [Bool.eq_iff_iff]
    simp only [Bool.and_eq_true, decide_eq_true_eq, beq_iff_eq]
    exact ⟨fun h => le_antisymm h.2 h.1, fun h => h ▸ ⟨le_refl _, le_refl _⟩⟩
  have h2 : (decide ('\\' ≤ x) && decide (x ≤ '\\')) = (x == '\\') := by
    rw [Bool.eq_iff_iff]
    simp only [Bool.and_eq_true, decide_eq_true_eq, beq_iff_eq]
    exact ⟨fun h => le_antisymm h.2 h.1, fun h => h ▸ ⟨le_refl _, le_refl _⟩⟩
  rw [h1, h2]

theorem run_sepRegex_cons (b : Bool) (x : Char) (t : Str) :
    sepRegex.run (b, x :: t) = if isSep x then [(false, t)] else [] := by
  simp [sepRegex, Regex.run, inRanges_sep]

theorem run_sepRegex_nil (b : Bool) : sepRegex.run (b, []) = [] := rfl

/-- On a subject without `\`, the atom of a plain pattern character matches exactly that
character. -/
theorem run_atomOf_cons (c : Char) (hc : plainChar c) (b : Bool) (x : Char) (t : Str)
    (hx : x ≠ '\\') : (atomOf c).run (b, x :: t) = if x = c then [(false, t)] else [] := by
  by_cases h : c = '/'
  · subst h
    simp only [atomOf, if_true, run_sepRegex_cons, isSep, Bool.or_eq_true, beq_iff_eq, hx, or_false]
  · simp [atomOf, h, Regex.run]

theorem run_atomOf_nil (c : Char) (b : Bool) : (atomOf c).run (b, []) = [] := by
  by_cases h : c = '/' <;> simp [atomOf, h, Regex.run, sepRegex]

theorem mem_run_atoms (w : Str) (hw : ∀ c ∈ w, plainChar c) (ks : List Regex) (q : Pos) :
    ∀ (b : Bool) (s : Str), '\\' ∉ s →
      (q ∈ (seqOf (w.map atomOf ++ ks)).run (b, s) ↔
        ∃ t, s = w ++ t ∧ q ∈ (seqOf ks).run (b && w.isEmpty, t)) := by
  induction w with
  | nil => intro b s _; simp
  | cons c w ih =>
    intro b s hs
    have hc := hw c (List.mem_cons_self _ _)
    have hw' : ∀ d ∈ w, plainChar d := fun d hd => hw d (List.mem_cons_of_mem _ hd)
    simp only [List.map_cons, List.cons_append, seqOf, Regex.run, List.mem_flatMap,
      List.isEmpty_cons, Bool.and_false]
    cases s with
    | nil => simp [run_atomOf_nil]
    | cons x s =>
      have hx : x ≠ '\\' := fun h => hs (h ▸ List.mem_cons_self _ _)
      have hs' : '\\' ∉ s := fun h => hs (List.mem_cons_of_mem _ h)
      rw [run_atomOf_cons c hc b x s hx]
      by_cases hxc : x = c
      · subst hxc
        simp only [if_true, List.mem_singleton, exists_eq_left, List.cons.injEq, true_and]
        have := ih hw' false s hs'
        simpa using this
      · simp [hxc]

theorem testFrom_iff (r : Regex) : ∀ (s : Str) (b : Bool),
    r.testFrom b s = true ↔
      ∃ pre post, s = pre ++ post ∧ r.run (b && pre.isEmpty, post) ≠ [] := by
  intro s
  induction s with
  | nil =>
    intro b
    simp only [Regex.testFrom, Bool.not_eq_true', List.isEmpty_eq_false]
    constructor
    · intro h
      exact ⟨[], [], rfl, by simpa using h⟩
    · rintro ⟨pre, post, h, hr⟩
      obtain ⟨h1, h2⟩ := List.append_eq_nil.mp h.symm
      subst h1 h2
      simpa using hr
  | cons c t ih =>
    intro b
    simp only [Regex.testFrom, Bool.or_eq_true, Bool.not_eq_true', List.isEmpty_eq_false, ih]
    constructor
    · rintro (h | ⟨pre, post, rfl, h⟩)
      · exact ⟨[], c :: t, rfl, by simpa using h⟩
      · exact ⟨c :: pre, post, rfl, by simpa using h⟩
    · rintro ⟨pre, post, h, hr⟩
      cases pre with
      | nil =>
        left
        simp only [List.nil_append] at h
        subst h
        simpa using hr
      | cons d pre =>
        right
        simp only [List.cons_append, List.cons.injEq] at h
        exact ⟨pre, post, h.2, by simpa using hr⟩

theorem backslash_not_mem_normalizePath (p : Str) : '\\' ∉ normalizePath p := by
  intro h
  simp only [normalizePath, List.mem_map] at h
  obtain ⟨c, _, hc⟩ := h
  by_cases h' : c = '\\'
  · simp [h'] at hc
  · simp [h'] at hc

theorem test_atoms_iff (w : Str) (hw : ∀ c ∈ w, plainChar c) (s : Str) (hs : '\\' ∉ s) :
    (seqOf (w.map atomOf)).test s = true ↔ w <:+: s := by
  unfold Regex.test
  rw [testFrom_iff]
  constructor
  · rintro ⟨pre, post, rfl, hr⟩
    obtain ⟨q, hq⟩ := List.exists_mem_of_ne_nil _ hr
    have hpost : '\\' ∉ post := fun h => hs (List.mem_append_right _ h)
    have := (mem_run_atoms w hw [] q (true && pre.isEmpty) post hpost)
    rw [List.append_nil] at this
    obtain ⟨t, rfl, _⟩ := this.mp hq
    exact ⟨pre, t, by simp⟩
  · rintro ⟨pre, t, rfl⟩
    refine ⟨pre, w ++ t, by simp, ?_⟩
    have hpost : '\\' ∉ w ++ t := fun h => hs (by
      simp only [List.mem_append] at h ⊢
      tauto)
    have := (mem_run_atoms w hw [] (true && pre.isEmpty && w.isEmpty, t) (true && pre.isEmpty)
      (w ++ t) hpost)
    rw [List.append_nil] at this
    exact List.ne_nil_of_mem (this.mpr ⟨t, rfl, by simp [seqOf, Regex.run]⟩)

/-- An ad hoc pattern that includes `/` and is otherwise made of characters that are not
syntax characters matches exactly the paths that contain it, once normalized. -/
theorem adHocMatches_slash (pattern path : Str) (hs : '/' ∈ pattern)
    (hp : ∀ c ∈ pattern, plainChar c) :
    adHocMatches pattern (normalizePath path)
      = .ok (decide (pattern <:+: normalizePath path)) := by
  have hsrc : regexPattern pattern = pattern.flatMap srcOf := by
    simp only [regexPattern, hs, if_true]
    rfl
  unfold adHocMatches
  rw [hsrc, compile_slash pattern hp]
  simp only [Except.map]
  congr 1
  rw [Bool.eq_iff_iff, test_atoms_iff pattern hp _ (backslash_not_mem_normalizePath path)]
  simp

theorem segIn_nil (w : Str) : ¬ SegIn w [] := by
  rintro ⟨pre, x, t, h, _⟩
  cases pre <;> simp at h

theorem segIn_cons (w : Str) (x : Char) (s : Str) :
    SegIn w (x :: s) ↔ (isSep x = true ∧ SegAt w s) ∨ SegIn w s := by
  constructor
  · rintro ⟨pre, y, t, h, hy, hat⟩
    cases pre with
    | nil =>
      simp only [List.nil_append, List.cons.injEq] at h
      obtain ⟨rfl, rfl⟩ := h
      exact Or.inl ⟨hy, hat⟩
    | cons d pre =>
      simp only [List.cons_append, List.cons.injEq] at h
      exact Or.inr ⟨pre, y, t, h.2, hy, hat⟩
  · rintro (⟨hx, hat⟩ | ⟨pre, y, t, rfl, hy, hat⟩)
    · exact ⟨[], x, s, rfl, hx, hat⟩
    · exact ⟨x :: pre, y, t, rfl, hy, hat⟩

theorem segAt_nil (w : Str) : SegAt w [] ↔ w = [] := by
  constructor
  · rintro ⟨t, h, _⟩
    exact (List.append_eq_nil.mp h.symm).1
  · rintro rfl
    exact ⟨[], rfl, Or.inl rfl⟩

theorem segAt_cons_sep (w : Str) (hw : ∀ c ∈ w, isSep c = false) (x : Char) (s : Str)
    (hx : isSep x = true) : SegAt w (x :: s) ↔ w = [] := by
  constructor
  · rintro ⟨t, h, _⟩
    cases w with
    | nil => rfl
    | cons c w =>
      simp only [List.cons_append, List.cons.injEq] at h
      have := hw c (List.mem_cons_self _ _)
      rw [← h.1, hx] at this
      exact absurd this (by simp)
  · rintro rfl
    exact ⟨x :: s, rfl, Or.inr ⟨x, s, rfl, hx⟩⟩

theorem segAt_cons_not_sep (w : Str) (x : Char) (s : Str) (hx : isSep x = false) :
    SegAt w (x :: s) ↔ ∃ w', w = x :: w' ∧ SegAt w' s := by
  constructor
  · rintro ⟨t, h, ht⟩
    cases w with
    | nil =>
      simp only [List.nil_append] at h
      subst h
      rcases ht with ht | ⟨y, t', ht, hy⟩
      · simp at ht
      · simp only [List.cons.injEq] at ht
        rw [ht.1, hy] at hx
        exact absurd hx (by simp)
    | cons c w =>
      simp only [List.cons_append, List.cons.injEq] at h
      exact ⟨w, by rw [h.1], t, h.2, ht⟩
  · rintro ⟨w', rfl, t, rfl, ht⟩
    exact ⟨t, rfl, ht⟩

/-- The segments of a path are its first segment and the segments that follow a
separator. -/
theorem splitOnP_spec (s : Str) :
    ∃ h tl, s.splitOnP isSep = h :: tl ∧ (∀ c ∈ h, isSep c = false) ∧ SegAt h s ∧
      (∀ w, (∀ c ∈ w, isSep c = false) → (SegAt w s → w = h)) ∧
      (∀ w, (∀ c ∈ w, isSep c = false) → (w ∈ tl ↔ SegIn w s)) := by
  induction s with
  | nil =>
    refine ⟨[], [], by simp, by simp, (segAt_nil _).mpr rfl, ?_, ?_⟩
    · intro w _ h
      exact (segAt_nil w).mp h
    · intro w _
      simp [segIn_nil]
  | cons x s ih =>
    obtain ⟨h, tl, e, hh, hat, huniq, htl⟩ := ih
    by_cases hx : isSep x = true
    · refine ⟨[], h :: tl, by simp [List.splitOnP_cons, hx, e], by simp,
        (segAt_cons_sep [] (by simp) x s hx).mpr rfl, ?_, ?_⟩
      · intro w hw hws
        exact (segAt_cons_sep w hw x s hx).mp hws
      · intro w hw
        rw [segIn_cons, List.mem_cons, htl w hw]
        constructor
        · rintro (rfl | h')
          · exact Or.inl ⟨hx, hat⟩
          · exact Or.inr h'
        · rintro (⟨_, h'⟩ | h')
          · exact Or.inl (huniq w hw h')
          · exact Or.inr h'
    · have hx' : isSep x = false := by simpa using hx
      refine ⟨x :: h, tl, by simp [List.splitOnP_cons, hx', e], ?_, ?_, ?_, ?_⟩
      · intro c hc
        rcases List.mem_cons.mp hc with rfl | hc
        · exact hx'
        · exact hh c hc
      · exact (segAt_cons_not_sep _ x s hx').mpr ⟨h, rfl, hat⟩
      · intro w hw hws
        obtain ⟨w', rfl, hw'⟩ := (segAt_cons_not_sep w x s hx').mp hws
        rw [huniq w' (fun c hc => hw c (List.mem_cons_of_mem _ hc)) hw']
      · intro w hw
        rw [segIn_cons, htl w hw]
        simp [hx']

theorem mem_segments_iff (w s : Str) (hw : ∀ c ∈ w, isSep c = false) :
    w ∈ s.splitOnP isSep ↔ SegAt w s ∨ SegIn w s := by
  obtain ⟨h, tl, e, _, hat, huniq, htl⟩ := splitOnP_spec s
  rw [e, List.mem_cons, htl w hw]
  constructor
  · rintro (rfl | h')
    · exact Or.inl hat
    · exact Or.inr h'
  · rintro (h' | h')
    · exact Or.inl (huniq w hw h')
    · exact Or.inr h'

theorem mem_run_leftBoundary (p : Pos) (b : Bool) (s : Str) :
    p ∈ leftBoundary.run (b, s) ↔
      (b = true ∧ p = (true, s)) ∨ (∃ x t, s = x :: t ∧ isSep x = true ∧ p = (false, t)) := by
  cases s with
  | nil => cases b <;> simp [leftBoundary, Regex.run, run_sepRegex_nil]
  | cons x t =>
    have key : (∃ y u, x :: t = y :: u ∧ isSep y = true ∧ p = (false, u)) ↔
        (isSep x = true ∧ p = (false, t)) :=
      ⟨by rintro ⟨_, _, h, h1, h2⟩; cases h; exact ⟨h1, h2⟩, fun ⟨h1, h2⟩ => ⟨x, t, rfl, h1, h2⟩⟩
    rw [key]
    by_cases hx : isSep x = true <;> cases b <;>
      simp [leftBoundary, Regex.run, run_sepRegex_cons, inRanges_sep, hx]

theorem run_rightBoundary_ne_nil (b : Bool) (t : Str) :
    (∃ q, q ∈ (seqOf [rightBoundary]).run (b, t)) ↔
      (t = [] ∨ ∃ x t', t = x :: t' ∧ isSep x = true) := by
  cases t with
  | nil => simp [seqOf, rightBoundary, Regex.run, run_sepRegex_nil]
  | cons x t =>
    by_cases hx : isSep x = true <;>
      simp [seqOf, rightBoundary, Regex.run, run_sepRegex_cons, inRanges_sep, hx]

theorem run_rest_iff (w : Str) (hw : ∀ c ∈ w, isSyntaxChar c = false) (b : Bool) (s : Str)
    (hs : '\\' ∉ s) :
    (∃ q, q ∈ (seqOf (w.map Regex.lit ++ [rightBoundary])).run (b, s)) ↔ SegAt w s := by
  have hslash : '/' ∉ w := fun h => by simpa [isSyntaxChar] using hw _ h
  have hp : ∀ c ∈ w, plainChar c := fun c hc => Or.inr (hw c hc)
  rw [← map_atomOf_of_no_slash w hslash]
  constructor
  · rintro ⟨q, hq⟩
    obtain ⟨t, rfl, ht⟩ := (mem_run_atoms w hp [rightBoundary] q b s hs).mp hq
    exact ⟨t, rfl, (run_rightBoundary_ne_nil _ t).mp ⟨q, ht⟩⟩
  · rintro ⟨t, rfl, ht⟩
    obtain ⟨q, hq⟩ := (run_rightBoundary_ne_nil (b && w.isEmpty) t).mpr ht
    exact ⟨q, (mem_run_atoms w hp [rightBoundary] q b (w ++ t) hs).mpr ⟨t, rfl, hq⟩⟩

theorem run_segment_iff (w : Str) (hw : ∀ c ∈ w, isSyntaxChar c = false) (b : Bool) (s : Str)
    (hs : '\\' ∉ s) :
    (seqOf (leftBoundary :: (w.map Regex.lit ++ [rightBoundary]))).run (b, s) ≠ [] ↔
      (b = true ∧ SegAt w s) ∨ (∃ x t, s = x :: t ∧ isSep x = true ∧ SegAt w t) := by
  have hne : ∀ l : List Pos, l ≠ [] ↔ ∃ q, q ∈ l :=
    fun l => ⟨List.exists_mem_of_ne_nil l, fun ⟨_, h⟩ => List.ne_nil_of_mem h⟩
  rw [hne]
  simp only [seqOf, Regex.run, List.mem_flatMap]
  constructor
  · rintro ⟨q, p, hp, hq⟩
    rcases (mem_run_leftBoundary p b s).mp hp with ⟨hb, rfl⟩ | ⟨x, t, rfl, hx, rfl⟩
    · exact Or.inl ⟨hb, (run_rest_iff w hw true s hs).mp ⟨q, hq⟩⟩
    · have ht : '\\' ∉ t := fun h => hs (List.mem_cons_of_mem _ h)
      exact Or.inr ⟨x, t, rfl, hx, (run_rest_iff w hw false t ht).mp ⟨q, hq⟩⟩
  · rintro (⟨hb, hat⟩ | ⟨x, t, rfl, hx, hat⟩)
    · obtain ⟨q, hq⟩ := (run_rest_iff w hw true s hs).mpr hat
      exact ⟨q, (true, s), (mem_run_leftBoundary _ b s).mpr (Or.inl ⟨hb, rfl⟩), hq⟩
    · have ht : '\\' ∉ t := fun h => hs (List.mem_cons_of_mem _ h)
      obtain ⟨q, hq⟩ := (run_rest_iff w hw false t ht).mpr hat
      exact ⟨q, (false, t), (mem_run_leftBoundary _ b (x :: t)).mpr (Or.inr ⟨x, t, rfl, hx, rfl⟩),
        hq⟩

theorem test_segment_iff (w : Str) (hw : ∀ c ∈ w, isSyntaxChar c = false) (s : Str)
    (hs : '\\' ∉ s) :
    (seqOf (leftBoundary :: (w.map Regex.lit ++ [rightBoundary]))).test s = true ↔
      SegAt w s ∨ SegIn w s := by
  unfold Regex.test
  rw [testFrom_iff]
  constructor
  · rintro ⟨pre, post, rfl, hr⟩
    have hpost : '\\' ∉ post := fun h => hs (List.mem_append_right _ h)
    rcases (run_segment_iff w hw _ post hpost).mp hr with ⟨hb, hat⟩ | ⟨x, t, rfl, hx, hat⟩
    · have : pre = [] := by simpa using hb
      subst this
      exact Or.inl hat
    · exact Or.inr ⟨pre, x, t, rfl, hx, hat⟩
  · rintro (hat | ⟨pre, x, t, rfl, hx, hat⟩)
    · exact ⟨[], s, rfl, (run_segment_iff w hw _ s hs).mpr (Or.inl ⟨rfl, hat⟩)⟩
    · have hpost : '\\' ∉ x :: t := fun h => hs (List.mem_append_right _ h)
      exact ⟨pre, x :: t, rfl, (run_segment_iff w hw _ _ hpost).mpr (Or.inr ⟨x, t, rfl, hx, hat⟩)⟩

theorem splitOnP_normalizePath (p : Str) :
    (normalizePath p).splitOnP isSep = p.splitOnP isSep := by
  induction p with
  | nil => rfl
  | cons c p ih =>
    have ih' : List.splitOnP isSep (List.map (fun c => if c = '\\' then '/' else c) p)
        = List.splitOnP isSep p := ih
    by_cases hc : c = '\\'
    · subst hc
      simp [normalizePath, List.splitOnP_cons, isSep, ih']
    · simp [normalizePath, List.splitOnP_cons, hc, ih']

theorem not_sep_of_plain (w : Str) (hw : ∀ c ∈ w, isSyntaxChar c = false) :
    ∀ c ∈ w, isSep c = false := by
  intro c hc
  have := hw c hc
  simp only [isSyntaxChar, List.mem_cons, decide_eq_false_iff_not, not_or] at this
  simp [isSep, this.2.2.1, this.2.2.2.2.2.2.2.2.2.2.2.2.2.2.1]

/-- An ad hoc pattern without syntax characters (and so without `/`) matches exactly the
paths that have a segment equal to it. -/
theorem adHocMatches_segment (pattern path : Str)
    (hp : ∀ c ∈ pattern, isSyntaxChar c = false) :
    adHocMatches pattern (normalizePath path) = .ok (decide (pattern ∈ segments path)) := by
  have hslash : '/' ∉ pattern := fun h => by simpa [isSyntaxChar] using hp _ h
  have hsrc : regexPattern pattern = leftSource ++ pattern ++ rightSource := by
    simp only [regexPattern, hslash, if_false]
  unfold adHocMatches
  rw [hsrc, compile_segment pattern hp]
  simp only [Except.map]
  congr 1
  rw [Bool.eq_iff_iff, test_segment_iff pattern hp _ (backslash_not_mem_normalizePath path),
    ← mem_segments_iff _ _ (not_sep_of_plain pattern hp), splitOnP_normalizePath]
  simp [segments]

theorem counted_append (a b : List Reached) : counted (a ++ b) = counted a ++ counted b := by
  simp [counted]

theorem collected_append (cfg : Config) (lib : PathLib) (a b : List Reached) :
    collected cfg lib (a ++ b) = collected cfg lib a ++ collected cfg lib b := by
  simp [collected, counted_append]

theorem tally_append (lib : PathLib) (acc : Totals) (a b : List Reached) :
    tally lib acc (a ++ b) = tally lib (tally lib acc a) b := by
  simp [tally, counted_append]

theorem treeText_append (cfg : Config) (a b : List Reached) :
    treeText cfg (a ++ b) = treeText cfg a ++ treeText cfg b := by
  simp [treeText]

theorem reachedIn_cons_skip (cfg : Config) (lib : PathLib) (ig : Matcher) (dir indent : Str)
    (above : List Str) (item : Str) (child : Node) (rest : List (Str × Node))
    (h : skips cfg lib ig (lib.join dir item) = true) :
    reachedIn cfg lib ig dir indent above ((item, child) :: rest)
      = reachedIn cfg lib ig dir indent above rest := by
  rw [reachedIn]
  simp [h]

theorem reachedIn_cons_keep (cfg : Config) (lib : PathLib) (ig : Matcher) (dir indent : Str)
    (above : List Str) (item : Str) (child : Node) (rest : List (Str × Node))
    (h : skips cfg lib ig (lib.join dir item) = false) :
    reachedIn cfg lib ig dir indent above ((item, child) :: rest)
      = ⟨lib.join dir item, item, indent, rest.isEmpty, child.kind, child.size, above⟩ ::
        (reachedBelow cfg lib ig (lib.join dir item)
            (indent ++ if rest.isEmpty then indentLast else indentMid)
            (above ++ [lib.join dir item]) child
          ++ reachedIn cfg lib ig dir indent above rest) := by
  rw [reachedIn]
  simp [h]

theorem skips_of_ok (cfg : Config) (lib : PathLib) (ig : Matcher) (path : Str) (b : Bool)
    (h : shouldSkipTraversalWithFilters cfg lib path ig = .ok b) : skips cfg lib ig path = b := by
  simp [skips, h]

theorem collected_cons_counted (cfg : Config) (lib : PathLib) (e : Reached) (es : List Reached)
    (h : e.kind ≠ .directory) :
    collected cfg lib (e :: es)
      = (if !cfg.shouldSkipContent e.path then [e.entry lib] else []) ++ collected cfg lib es := by
  by_cases hc : cfg.shouldSkipContent e.path = true <;> simp [collected, counted, h, hc]

theorem collected_cons_directory (cfg : Config) (lib : PathLib) (e : Reached)
    (es : List Reached) (h : e.kind = .directory) :
    collected cfg lib (e :: es) = collected cfg lib es := by
  simp [collected, counted, h]

theorem tally_cons_counted (lib : PathLib) (acc : Totals) (e : Reached) (es : List Reached)
    (h : e.kind ≠ .directory) :
    tally lib acc (e :: es)
      = tally lib (acc.record (lib.toLowerCase (lib.extname e.path)) e.size) es := by
  simp [tally, counted, h]

theorem tally_cons_directory (lib : PathLib) (acc : Totals) (e : Reached) (es : List Reached)
    (h : e.kind = .directory) : tally lib acc (e :: es) = tally lib acc es := by
  simp [tally, counted, h]

/-- When `getAllFiles` returns, its list and its accumulators are those of the reached
entries. -/
theorem getAllFilesLoop_ok (cfg : Config) (lib : PathLib) (ig : Matcher) :
    ∀ (items : List (Str × Node)) (dir indent : Str) (above : List Str) (acc : Totals)
      (files : List FileEntry) (acc' : Totals),
      getAllFilesLoop cfg lib ig dir items acc = .ok (files, acc') →
        files = collected cfg lib (reachedIn cfg lib ig dir indent above items) ∧
        acc' = tally lib acc (reachedIn cfg lib ig dir indent above items)
  | [], dir, indent, above, acc, files, acc' => by
    intro h
    simp only [getAllFilesLoop, Except.ok.injEq, Prod.mk.injEq] at h
    simp [reachedIn, collected, tally, counted, h.1, h.2]
  | (item, child) :: rest, dir, indent, above, acc, files, acc' => by
    intro h
    unfold getAllFilesLoop at h
    simp only at h
    cases hsw : shouldSkipTraversalWithFilters cfg lib (lib.join dir item) ig with
    | error e => rw [hsw] at h; simp at h
    | ok b =>
      have hs := skips_of_ok cfg lib ig _ b hsw
      rw [hsw] at h
      cases b with
      | true =>
        simp only at h
        rw [reachedIn_cons_skip _ _ _ _ _ _ _ _ _ hs]
        exact getAllFilesLoop_ok cfg lib ig rest dir indent above acc files acc' h
      | false =>
        simp only at h
        rw [reachedIn_cons_keep _ _ _ _ _ _ _ _ _ hs]
        cases child with
        | unstatable => simp at h
        | unlistable => simp at h
        | dir sub =>
          simp only [getAllFiles] at h
          cases hsub : getAllFilesLoop cfg lib ig (lib.join dir item) sub acc with
          | error e => rw [hsub] at h; simp at h
          | ok r =>
            obtain ⟨subFiles, acc1⟩ := r
            rw [hsub] at h
            simp only at h
            cases hrest : getAllFilesLoop cfg lib ig dir rest acc1 with
            | error e => rw [hrest] at h; simp at h
            | ok r2 =>
              obtain ⟨more, acc2⟩ := r2
              rw [hrest] at h
              simp only [Except.ok.injEq, Prod.mk.injEq] at h
              obtain ⟨h1, h2⟩ := getAllFilesLoop_ok cfg lib ig sub (lib.join dir item)
                (indent ++ if rest.isEmpty then indentLast else indentMid)
                (above ++ [lib.join dir item]) acc subFiles acc1 hsub
              obtain ⟨h3, h4⟩ := getAllFilesLoop_ok cfg lib ig rest dir indent above acc1 more
                acc2 hrest
              rw [collected_cons_directory _ _ _ _ rfl, tally_cons_directory _ _ _ _ rfl,
                collected_append, tally_append, reachedBelow, ← h1, ← h2, ← h3, ← h4]
              exact ⟨h.1.symm, h.2.symm⟩
        | file size =>
          simp only at h
          cases hrest : getAllFilesLoop cfg lib ig dir rest
              (acc.record (lib.toLowerCase (lib.extname (lib.join dir item))) size) with
          | error e => rw [hrest] at h; simp at h
          | ok r2 =>
            obtain ⟨more, acc2⟩ := r2
            rw [hrest] at h
            simp only [Except.ok.injEq, Prod.mk.injEq] at h
            obtain ⟨h3, h4⟩ := getAllFilesLoop_ok cfg lib ig rest dir indent above _ more
              acc2 hrest
            rw [collected_cons_counted _ _ _ _ (by simp [Node.kind]),
              tally_cons_counted _ _ _ _ (by simp [Node.kind])]
            simp only [reachedBelow, List.nil_append, Node.size, ← h3, ← h4]
            exact ⟨h.1.symm, h.2.symm⟩
        | other size =>
          simp only at h
          cases hrest : getAllFilesLoop cfg lib ig dir rest
              (acc.record (lib.toLowerCase (lib.extname (lib.join dir item))) size) with
          | error e => rw [hrest] at h; simp at h
          | ok r2 =>
            obtain ⟨more, acc2⟩ := r2
            rw [hrest] at h
            simp only [Except.ok.injEq, Prod.mk.injEq] at h
            obtain ⟨h3, h4⟩ := getAllFilesLoop_ok cfg lib ig rest dir indent above _ more
              acc2 hrest
            rw [collected_cons_counted _ _ _ _ (by simp [Node.kind]),
              tally_cons_counted _ _ _ _ (by simp [Node.kind])]
            simp only [reachedBelow, List.nil_append, Node.size, ← h3, ← h4]
            exact ⟨h.1.symm, h.2.symm⟩

theorem treeText_cons (cfg : Config) (e : Reached) (es : List Reached) :
    treeText cfg (e :: es) = e.line cfg ++ treeText cfg es := by
  simp [treeText]

/-- When `generateTree` returns, its text is made of the lines of the reached entries. -/
theorem generateTreeLoop_ok (cfg : Config) (lib : PathLib) (ig : Matcher) :
    ∀ (items : List (Str × Node)) (dir pfx : Str) (above : List Str) (text : Str),
      generateTreeLoop cfg lib ig dir pfx items = .ok text →
        text = treeText cfg (reachedIn cfg lib ig dir pfx above items)
  | [], dir, pfx, above, text => by
    intro h
    simp only [generateTreeLoop, Except.ok.injEq] at h
    simp [reachedIn, treeText, ← h]
  | (item, child) :: rest, dir, pfx, above, text => by
    intro h
    unfold generateTreeLoop at h
    simp only at h
    cases child with
    | unstatable => simp at h
    | file size =>
      simp only at h
      cases hsw : shouldSkipTraversalWithFilters cfg lib (lib.join dir item) ig with
      | error e => rw [hsw] at h; simp at h
      | ok b =>
        have hs := skips_of_ok cfg lib ig _ b hsw
        rw [hsw] at h
        cases b with
        | true =>
          simp only at h
          rw [reachedIn_cons_skip _ _ _ _ _ _ _ _ _ hs]
          exact generateTreeLoop_ok cfg lib ig rest dir pfx above text h
        | false =>
          simp only at h
          rw [reachedIn_cons_keep _ _ _ _ _ _ _ _ _ hs]
          cases hrest : generateTreeLoop cfg lib ig dir pfx rest with
          | error e => rw [hrest] at h; simp at h
          | ok more =>
            rw [hrest] at h
            simp only [Except.ok.injEq] at h
            have h3 := generateTreeLoop_ok cfg lib ig rest dir pfx above more hrest
            simp only [treeText_cons, reachedBelow, List.nil_append, Reached.line, Node.kind,
              if_true, ← h3]
            exact h.symm
    | dir sub =>
      simp only at h
      cases hsw : shouldSkipTraversalWithFilters cfg lib (lib.join dir item) ig with
      | error e => rw [hsw] at h; simp at h
      | ok b =>
        have hs := skips_of_ok cfg lib ig _ b hsw
        rw [hsw] at h
        cases b with
        | true =>
          simp only at h
          rw [reachedIn_cons_skip _ _ _ _ _ _ _ _ _ hs]
          exact generateTreeLoop_ok cfg lib ig rest dir pfx above text h
        | false =>
          simp only [generateTree] at h
          rw [reachedIn_cons_keep _ _ _ _ _ _ _ _ _ hs]
          cases hsub : generateTreeLoop cfg lib ig (lib.join dir item)
              (pfx ++ if rest.isEmpty then indentLast else indentMid) sub with
          | error e => rw [hsub] at h; simp at h
          | ok below =>
            rw [hsub] at h
            simp only at h
            cases hrest : generateTreeLoop cfg lib ig dir pfx rest with
            | error e => rw [hrest] at h; simp at h
            | ok more =>
              rw [hrest] at h
              simp only [Except.ok.injEq] at h
              have h1 := generateTreeLoop_ok cfg lib ig sub (lib.join dir item)
                (pfx ++ if rest.isEmpty then indentLast else indentMid)
                (above ++ [lib.join dir item]) below hsub
              have h3 := generateTreeLoop_ok cfg lib ig rest dir pfx above more hrest
              simp only [treeText_cons, treeText_append, reachedBelow, Reached.line, Node.kind,
                ← h1, ← h3]
              simpa using h.symm
    | other size =>
      simp only at h
      cases hsw : shouldSkipTraversalWithFilters cfg lib (lib.join dir item) ig with
      | error e => rw [hsw] at h; simp at h
      | ok b =>
        have hs := skips_of_ok cfg lib ig _ b hsw
        rw [hsw] at h
        cases b with
        | true =>
          simp only at h
          rw [reachedIn_cons_skip _ _ _ _ _ _ _ _ _ hs]
          exact generateTreeLoop_ok cfg lib ig rest dir pfx above text h
        | false =>
          simp [generateTree] at h
    | unlistable =>
      simp only at h
      cases hsw : shouldSkipTraversalWithFilters cfg lib (lib.join dir item) ig with
      | error e => rw [hsw] at h; simp at h
      | ok b =>
        have hs := skips_of_ok cfg lib ig _ b hsw
        rw [hsw] at h
        cases b with
        | true =>
          simp only at h
          rw [reachedIn_cons_skip _ _ _ _ _ _ _ _ _ hs]
          exact generateTreeLoop_ok cfg lib ig rest dir pfx above text h
        | false =>
          simp [generateTree] at h

theorem regular_of_mem_dir {sub : List (Str × Node)} (h : Regular (.dir sub)) :
    ∀ p ∈ sub, Regular p.2 := by
  cases h with
  | dir _ hsub => exact hsub

/-- On a tree of regular files and directories the two walks fail together, on the
same ad hoc pattern, or return together. -/
theorem walks_regular (cfg : Config) (lib : PathLib) (ig : Matcher) :
    ∀ (items : List (Str × Node)), (∀ p ∈ items, Regular p.2) → ∀ (dir pfx : Str),
      (∃ e, (∃ path, shouldSkipTraversalWithFilters cfg lib path ig = .error e) ∧
        generateTreeLoop cfg lib ig dir pfx items = .error (.pattern e) ∧
        ∀ acc, getAllFilesLoop cfg lib ig dir items acc = .error (.pattern e)) ∨
      ((∃ text, generateTreeLoop cfg lib ig dir pfx items = .ok text) ∧
        ∀ acc, ∃ r, getAllFilesLoop cfg lib ig dir items acc = .ok r)
  | [], _, dir, pfx => by
    right
    exact ⟨⟨[], by simp [generateTreeLoop]⟩, fun acc => ⟨([], acc), by simp [getAllFilesLoop]⟩⟩
  | (item, child) :: rest, hreg, dir, pfx => by
    have hchild : Regular child := hreg (item, child) (List.mem_cons_self _ _)
    have hrest : ∀ p ∈ rest, Regular p.2 := fun p hp => hreg p (List.mem_cons_of_mem _ hp)
    have ihRest := walks_regular cfg lib ig rest hrest dir pfx
    unfold generateTreeLoop getAllFilesLoop
    simp only
    cases child with
    | unstatable => cases hchild
    | unlistable => cases hchild
    | other size => cases hchild
    | file size =>
      simp only
      cases hsw : shouldSkipTraversalWithFilters cfg lib (lib.join dir item) ig with
      | error e => left; exact ⟨e, ⟨_, hsw⟩, rfl, fun _ => rfl⟩
      | ok b =>
        cases b with
        | true => exact ihRest
        | false =>
          simp only
          rcases ihRest with ⟨e, h0, h1, h2⟩ | ⟨⟨text, h1⟩, h2⟩
          · left
            refine ⟨e, h0, by rw [h1], fun acc => ?_⟩
            rw [h2]
          · right
            refine ⟨⟨_, by rw [h1]⟩, fun acc => ?_⟩
            obtain ⟨r, hr⟩ := h2 (acc.record (lib.toLowerCase (lib.extname (lib.join dir item))) size)
            rw [hr]
            exact ⟨_, rfl⟩
    | dir sub =>
      have ihSub := walks_regular cfg lib ig sub (regular_of_mem_dir hchild) (lib.join dir item)
        (pfx ++ if rest.isEmpty then indentLast else indentMid)
      simp only
      cases hsw : shouldSkipTraversalWithFilters cfg lib (lib.join dir item) ig with
      | error e => left; exact ⟨e, ⟨_, hsw⟩, rfl, fun _ => rfl⟩
      | ok b =>
        cases b with
        | true => exact ihRest
        | false =>
          simp only [generateTree, getAllFiles]
          rcases ihSub with ⟨e, s0, s1, s2⟩ | ⟨⟨below, s1⟩, s2⟩
          · left
            refine ⟨e, s0, by rw [s1], fun acc => ?_⟩
            rw [s2]
          · rcases ihRest with ⟨e, h0, h1, h2⟩ | ⟨⟨text, h1⟩, h2⟩
            · left
              refine ⟨e, h0, by rw [s1, h1], fun acc => ?_⟩
              obtain ⟨⟨subFiles, acc1⟩, hr⟩ := s2 acc
              rw [hr]
              simp only
              rw [h2]
            · right
              refine ⟨⟨_, by rw [s1, h1]⟩, fun acc => ?_⟩
              obtain ⟨⟨subFiles, acc1⟩, hr⟩ := s2 acc
              obtain ⟨r2, hr2⟩ := h2 acc1
              rw [hr]
              simp only
              rw [hr2]
              exact ⟨_, rfl⟩

/-- A reached entry is not traversal-skipped, and neither is any directory it lies below
(the directories in `above` are those the listing itself lies below). -/
theorem reachedIn_not_skipped (cfg : Config) (lib : PathLib) (ig : Matcher) :
    ∀ (items : List (Str × Node)) (dir indent : Str) (above : List Str),
      ∀ e ∈ reachedIn cfg lib ig dir indent above items,
        skips cfg lib ig e.path = false ∧
        ∀ a ∈ e.above, a ∈ above ∨ skips cfg lib ig a = false
  | [], dir, indent, above => by
    intro e he
    simp [reachedIn] at he
  | (item, child) :: rest, dir, indent, above => by
    intro e he
    have ihRest := reachedIn_not_skipped cfg lib ig rest dir indent above
    by_cases hs : skips cfg lib ig (lib.join dir item) = true
    · rw [reachedIn_cons_skip _ _ _ _ _ _ _ _ _ hs] at he
      exact ihRest e he
    · have hs' : skips cfg lib ig (lib.join dir item) = false := by simpa using hs
      rw [reachedIn_cons_keep _ _ _ _ _ _ _ _ _ hs'] at he
      rcases List.mem_cons.mp he with rfl | he
      · exact ⟨hs', fun a ha => Or.inl ha⟩
      · rcases List.mem_append.mp he with he | he
        · cases child with
          | dir sub =>
            rw [reachedBelow] at he
            obtain ⟨h1, h2⟩ := reachedIn_not_skipped cfg lib ig sub _ _ _ e he
            refine ⟨h1, fun a ha => ?_⟩
            rcases h2 a ha with h | h
            · rcases List.mem_append.mp h with h | h
              · exact Or.inl h
              · right
                rw [List.mem_singleton.mp h]
                exact hs'
            · exact Or.inr h
          | file size => simp [reachedBelow] at he
          | other size => simp [reachedBelow] at he
          | unlistable => simp [reachedBelow] at he
          | unstatable => simp [reachedBelow] at he
        · exact ihRest e he

/-- On a tree of regular files and directories every reached entry is a regular file or a
directory. -/
theorem reachedIn_regular_kind (cfg : Config) (lib : PathLib) (ig : Matcher) :
    ∀ (items : List (Str × Node)), (∀ p ∈ items, Regular p.2) →
      ∀ (dir indent : Str) (above : List Str),
        ∀ e ∈ reachedIn cfg lib ig dir indent above items,
          e.kind = .file ∨ e.kind = .directory
  | [], _, dir, indent, above => by
    intro e he
    simp [reachedIn] at he
  | (item, child) :: rest, hreg, dir, indent, above => by
    intro e he
    have hchild : Regular child := hreg (item, child) (List.mem_cons_self _ _)
    have hrest : ∀ p ∈ rest, Regular p.2 := fun p hp => hreg p (List.mem_cons_of_mem _ hp)
    have ihRest := reachedIn_regular_kind cfg lib ig rest hrest dir indent above
    by_cases hs : skips cfg lib ig (lib.join dir item) = true
    · rw [reachedIn_cons_skip _ _ _ _ _ _ _ _ _ hs] at he
      exact ihRest e he
    · have hs' : skips cfg lib ig (lib.join dir item) = false := by simpa using hs
      rw [reachedIn_cons_keep _ _ _ _ _ _ _ _ _ hs'] at he
      cases child with
      | unstatable => cases hchild
      | unlistable => cases hchild
      | other size => cases hchild
      | file size =>
        rcases List.mem_cons.mp he with rfl | he
        · exact Or.inl rfl
        · simp only [reachedBelow, List.nil_append] at he
          exact ihRest e he
      | dir sub =>
        rcases List.mem_cons.mp he with rfl | he
        · exact Or.inr rfl
        · rcases List.mem_append.mp he with he | he
          · rw [reachedBelow] at he
            exact reachedIn_regular_kind cfg lib ig sub (regular_of_mem_dir hchild) _ _ _ e he
          · exact ihRest e he

/-- On a tree of regular files and directories the two walks either fail on the same ad
hoc pattern or return what the reached entries determine. -/
theorem walks_regular_eq (cfg : Config) (lib : PathLib) (ig : Matcher)
    (items : List (Str × Node)) (hreg : ∀ p ∈ items, Regular p.2) (dir pfx : Str)
    (above : List Str) :
    (∃ e, (∃ path, shouldSkipTraversalWithFilters cfg lib path ig = .error e) ∧
      generateTreeLoop cfg lib ig dir pfx items = .error (.pattern e) ∧
      ∀ acc, getAllFilesLoop cfg lib ig dir items acc = .error (.pattern e)) ∨
    (generateTreeLoop cfg lib ig dir pfx items
        = .ok (treeText cfg (reachedIn cfg lib ig dir pfx above items)) ∧
      ∀ acc, getAllFilesLoop cfg lib ig dir items acc
        = .ok (collected cfg lib (reachedIn cfg lib ig dir pfx above items),
            tally lib acc (reachedIn cfg lib ig dir pfx above items))) := by
  rcases walks_regular cfg lib ig items hreg dir pfx with h | ⟨⟨text, h1⟩, h2⟩
  · exact Or.inl h
  · right
    refine ⟨?_, fun acc => ?_⟩
    · rw [h1, generateTreeLoop_ok cfg lib ig items dir pfx above text h1]
    · obtain ⟨⟨files, acc'⟩, hr⟩ := h2 acc
      obtain ⟨e1, e2⟩ := getAllFilesLoop_ok cfg lib ig items dir pfx above acc files acc' hr
      rw [hr, e1, e2]

theorem not_syntax_of_word (c : Char) (h : isWordChar c = true) : isSyntaxChar c = false := by
  by_contra hs
  have hs' : isSyntaxChar c = true := by simpa using hs
  simp only [isSyntaxChar, List.mem_cons, List.mem_singleton, decide_eq_true_eq,
    List.not_mem_nil, or_false] at hs'
  rcases hs' with h' | h' | h' | h' | h' | h' | h' | h' | h' | h' | h' | h' | h' | h' | h' <;>
    (subst h'; revert h; decide)

/-- The method `some` returns when no callback throws, and says whether one accepted. -/
theorem someM_total (f : Str → Except RegexError Bool) :
    ∀ (l : List Str), (∀ p ∈ l, ∃ b, f p = .ok b) →
      someM f l = .ok (decide (∃ p ∈ l, f p = .ok true))
  | [], _ => by simp [someM]
  | p :: ps, h => by
    obtain ⟨b, hb⟩ := h p (List.mem_cons_self _ _)
    have ih := someM_total f ps (fun q hq => h q (List.mem_cons_of_mem _ hq))
    unfold someM
    rw [hb]
    cases b with
    | true => simp [hb]
    | false => simp [hb, ih]

theorem adHocMatches_total (pattern path : Str)
    (h : ∃ r, RegExp.compile (regexPattern pattern) = .ok r) :
    ∃ b, adHocMatches pattern path = .ok b := by
  obtain ⟨r, hr⟩ := h
  exact ⟨r.test path, by simp [adHocMatches, hr, Except.map]⟩

theorem hasAdditionalFilter_total (cfg : Config) (h : PatternsCompile cfg) (path : Str) :
    hasAdditionalFilter cfg path
      = .ok (decide (∃ f ∈ cfg.additionalFilters,
          adHocMatches f (normalizePath path) = .ok true)) :=
  someM_total _ _ (fun f hf => adHocMatches_total f _ (h f hf))

/-- The decision of the filter engine when every ad hoc pattern compiles. -/
theorem shouldSkip_total (cfg : Config) (lib : PathLib) (ig : Matcher)
    (h : PatternsCompile cfg) (path : Str) :
    shouldSkipTraversalWithFilters cfg lib path ig
      = .ok (cfg.shouldSkipTraversal path
          || decide (∃ f ∈ cfg.additionalFilters,
              adHocMatches f (normalizePath path) = .ok true)
          || (!(lib.relative cfg.folderPath path).isEmpty
              && ig (lib.relative cfg.folderPath path))) := by
  unfold shouldSkipTraversalWithFilters
  rw [hasAdditionalFilter_total cfg h path]
  by_cases h1 : cfg.shouldSkipTraversal path = true
  · simp [h1]
  · by_cases h2 : ∃ f ∈ cfg.additionalFilters, adHocMatches f (normalizePath path) = .ok true
    · simp [h1, h2]
    · by_cases h3 : (!(lib.relative cfg.folderPath path).isEmpty
          && ig (lib.relative cfg.folderPath path)) = true
      · simp [h1, h2, h3]
      · simp [h1, h2, h3]

theorem countOf_bump (x y : Str) : ∀ (ft : List (Str × Nat)),
    countOf x (bump y ft) = countOf x ft + (if y = x then 1 else 0)
  | [] => by simp [bump, countOf]
  | (k, n) :: rest => by
    have ih := countOf_bump x y rest
    by_cases hky : k = y
    · subst hky
      by_cases hkx : k = x
      · simp [bump, countOf, hkx]
      · simp [bump, countOf, hkx]
    · by_cases hkx : k = x
      · subst hkx
        have : ¬ y = k := fun h => hky h.symm
        simp [bump, countOf, hky, this]
      · simp [bump, countOf, hky, hkx, ih]

theorem foldl_record_totalFiles (lib : PathLib) : ∀ (es : List Reached) (acc : Totals),
    (es.foldl (fun a e => a.record (lib.toLowerCase (lib.extname e.path)) e.size) acc).totalFiles
      = acc.totalFiles + es.length
  | [], acc => by simp
  | e :: es, acc => by
    rw [List.foldl_cons, foldl_record_totalFiles lib es]
    simp [Totals.record]
    omega

theorem foldl_record_totalSize (lib : PathLib) : ∀ (es : List Reached) (acc : Totals),
    (es.foldl (fun a e => a.record (lib.toLowerCase (lib.extname e.path)) e.size) acc).totalSize
      = acc.totalSize + (es.map Reached.size).sum
  | [], acc => by simp
  | e :: es, acc => by
    rw [List.foldl_cons, foldl_record_totalSize lib es]
    simp [Totals.record]
    omega

theorem foldl_record_fileTypes (lib : PathLib) (x : Str) : ∀ (es : List Reached) (acc : Totals),
    countOf x (es.foldl (fun a e => a.record (lib.toLowerCase (lib.extname e.path)) e.size)
        acc).fileTypes
      = countOf x acc.fileTypes + (es.filter fun e => e.ext lib = x).length
  | [], acc => by simp
  | e :: es, acc => by
    rw [List.foldl_cons, foldl_record_fileTypes lib x es]
    by_cases h : e.ext lib = x
    · have h' : lib.toLowerCase (lib.extname e.path) = x := h
      simp [Totals.record, countOf_bump, h, h']
      omega
    · have h' : ¬ lib.toLowerCase (lib.extname e.path) = x := h
      simp [Totals.record, countOf_bump, h, h']

theorem tally_totalFiles (lib : PathLib) (acc : Totals) (es : List Reached) :
    (tally lib acc es).totalFiles = acc.totalFiles + (counted es).length :=
  foldl_record_totalFiles lib _ acc

theorem tally_totalSize (lib : PathLib) (acc : Totals) (es : List Reached) :
    (tally lib acc es).totalSize = acc.totalSize + ((counted es).map Reached.size).sum :=
  foldl_record_totalSize lib _ acc

theorem tally_fileTypes (lib : PathLib) (acc : Totals) (es : List Reached) (x : Str) :
    countOf x (tally lib acc es).fileTypes
      = countOf x acc.fileTypes + ((counted es).filter fun e => e.ext lib = x).length :=
  foldl_record_fileTypes lib x _ acc

theorem marker_eq : marker = [' ', '✗'] := rfl

theorem marker_suffix_fileLine (cfg : Config) (pfx : Str) (isLast : Bool) (item path : Str) :
    marker ++ ['\n'] <:+ fileLine cfg pfx isLast item path ↔ cfg.shouldSkipContent path = true := by
  unfold fileLine
  by_cases h : cfg.shouldSkipContent path = true
  · simp only [h, Bool.not_true, Bool.false_eq_true, if_false, iff_true]
    exact ⟨pfx ++ (if isLast then connectorLast else connectorMid) ++ item ++ [' '], by simp⟩
  · have h' : cfg.shouldSkipContent path = false := by simpa using h
    simp only [h', Bool.not_false, if_true, List.append_nil, Bool.false_eq_true, iff_false]
    intro hsuf
    have := List.reverse_prefix.mpr hsuf
    simp [marker_eq, List.prefix_cons_inj] at this

theorem marker_not_suffix_dirLine (pfx : Str) (isLast : Bool) (item : Str) :
    ¬ marker ++ ['\n'] <:+ dirLine pfx isLast item := by
  unfold dirLine
  intro hsuf
  have := List.reverse_prefix.mpr hsuf
  simp [marker_eq, List.prefix_cons_inj] at this

/-- Two segments that follow each other in a path are separated by one separator. -/
theorem adjacent_segments (s : Str) :
    ∀ (l1 : List Str) (u v : Str) (l2 : List Str), s.splitOnP isSep = l1 ++ u :: v :: l2 →
      ∃ pre x post, isSep x = true ∧ s = pre ++ u ++ x :: v ++ post ∧ (l1 = [] → pre = []) := by
  induction s with
  | nil =>
    intro l1 u v l2 h
    rw [List.splitOnP_nil] at h
    have := congrArg List.length h
    simp at this
    omega
  | cons c s ih =>
    intro l1 u v l2 h
    obtain ⟨hd, tl, e, _, hat, _, _⟩ := splitOnP_spec s
    by_cases hc : isSep c = true
    · rw [List.splitOnP_cons, if_pos hc] at h
      cases l1 with
      | nil =>
        simp only [List.nil_append, List.cons.injEq] at h
        obtain ⟨hu, hv⟩ := h
        rw [e] at hv
        simp only [List.cons.injEq] at hv
        obtain ⟨t, ht, _⟩ := hat
        refine ⟨[], c, t, hc, ?_, fun _ => rfl⟩
        rw [← hu, ← hv.1, ht]
        simp
      | cons l l1 =>
        simp only [List.cons_append, List.cons.injEq] at h
        obtain ⟨pre, x, post, hx, hs, _⟩ := ih l1 u v l2 h.2
        exact ⟨c :: pre, x, post, hx, by rw [hs]; simp, by simp⟩
    · have hc' : isSep c = false := by simpa using hc
      rw [List.splitOnP_cons, e] at h
      simp only [hc', Bool.false_eq_true, if_false, List.modifyHead_cons] at h
      cases l1 with
      | nil =>
        simp only [List.nil_append, List.cons.injEq] at h
        obtain ⟨hu, htl⟩ := h
        obtain ⟨pre, x, post, hx, hs, hpre⟩ := ih [] hd v l2 (by rw [e, htl]; rfl)
        have := hpre rfl
        subst this
        refine ⟨[], x, post, hx, ?_, fun _ => rfl⟩
        rw [← hu, hs]
        simp
      | cons l l1 =>
        simp only [List.cons_append, List.cons.injEq] at h
        obtain ⟨pre, x, post, hx, hs, _⟩ := ih (hd :: l1) u v l2 (by rw [e, h.2]; rfl)
        exact ⟨c :: pre, x, post, hx, by rw [hs]; simp, by simp⟩

theorem sep_of_mem_normalizePath (p : Str) (x : Char) (hx : x ∈ normalizePath p)
    (hs : isSep x = true) : x = '/' := by
  have hb : x ≠ '\\' := fun h => backslash_not_mem_normalizePath p (h ▸ hx)
  simpa [isSep, hb] using hs

/-- A path in which the segment `u` is followed by the segment `v` contains, once
normalized, `u`, a `/` and `v` in a row. -/
theorem infix_of_adjacent_segments (path u v : Str) (h : [u, v] <:+: segments path) :
    u ++ '/' :: v <:+: normalizePath path := by
  obtain ⟨l1, l2, hl⟩ := h
  have hsplit : (normalizePath path).splitOnP isSep = l1 ++ u :: v :: l2 := by
    rw [splitOnP_normalizePath]
    simpa [segments] using hl.symm
  obtain ⟨pre, x, post, hx, hs, _⟩ := adjacent_segments _ l1 u v l2 hsplit
  have hmem : x ∈ normalizePath path := by
    rw [hs]
    simp
  have hx' := sep_of_mem_normalizePath path x hmem hx
  subst hx'
  exact ⟨pre, post, by rw [hs]; simp⟩

/-! ## The claims -/

/-- C1. A path that the built-in rule `shouldSkipTraversal` skips is skipped by
`shouldSkipTraversalWithFilters`, whatever the ad hoc patterns (well formed or not) and
whatever the gitignore matcher says: the default exclusions cannot be defeated. -/
theorem C1_default_rules_unconditional (cfg : Config) (lib : PathLib) (path : Str)
    (ig : Matcher) (h : cfg.shouldSkipTraversal path = true) :
    shouldSkipTraversalWithFilters cfg lib path ig = .ok true := by
  simp [shouldSkipTraversalWithFilters, h]

/-- C1, at a concrete input: a path below `node_modules`, an ad hoc pattern that is not
even a regular expression and a matcher that ignores nothing. -/
theorem C1_default_rules_unconditional_witness :
    brokenConfig.shouldSkipTraversal "src/node_modules/pkg.js".toList = true ∧
    shouldSkipTraversalWithFilters brokenConfig exampleLib "src/node_modules/pkg.js".toList
      noRules = .ok true :=
  ⟨by decide, C1_default_rules_unconditional brokenConfig exampleLib _ noRules (by decide)⟩

theorem exampleConfig_compiles : PatternsCompile exampleConfig := by
  intro f hf
  have e : exampleConfig.additionalFilters = ["temp".toList, "cache".toList] := by decide
  have hf' : f = "temp".toList ∨ f = "cache".toList := by
    rw [e] at hf
    simpa using hf
  rcases hf' with rfl | rfl
  · exact ⟨_, rfl⟩
  · exact ⟨_, rfl⟩

/-- C6. An ad hoc pattern made of letters, digits and underscores compiles, and it
matches a path exactly when some segment of the path (a piece between `/` or `\`
separators) is equal to the pattern. -/
theorem C6_word_pattern_matches_whole_segment (pattern path : Str)
    (h : ∀ c ∈ pattern, isWordChar c = true) :
    adHocMatches pattern (normalizePath path) = .ok (decide (pattern ∈ segments path)) :=
  adHocMatches_segment pattern path (fun c hc => not_syntax_of_word c (h c hc))

/-- C6, at the inputs of the claim: `foo` matches `foo`, `src/foo` and `a/foo/b.txt`, and
does not match `foobar`, `src/foobar` or `myfoo/x`. -/
theorem C6_word_pattern_matches_whole_segment_witness :
    (∀ c ∈ "foo".toList, isWordChar c = true) ∧
    adHocMatches "foo".toList (normalizePath "foo".toList) = .ok true ∧
    adHocMatches "foo".toList (normalizePath "src/foo".toList) = .ok true ∧
    adHocMatches "foo".toList (normalizePath "a/foo/b.txt".toList) = .ok true ∧
    adHocMatches "foo".toList (normalizePath "a\\foo\\b.txt".toList) = .ok true ∧
    adHocMatches "foo".toList (normalizePath "foobar".toList) = .ok false ∧
    adHocMatches "foo".toList (normalizePath "src/foobar".toList) = .ok false ∧
    adHocMatches "foo".toList (normalizePath "myfoo/x".toList) = .ok false :=
  ⟨by decide,
   (C6_word_pattern_matches_whole_segment "foo".toList "foo".toList (by decide)).trans
     (by decide),
   (C6_word_pattern_matches_whole_segment "foo".toList "src/foo".toList (by decide)).trans
     (by decide),
   (C6_word_pattern_matches_whole_segment "foo".toList "a/foo/b.txt".toList (by decide)).trans
     (by decide),
   (C6_word_pattern_matches_whole_segment "foo".toList "a\\foo\\b.txt".toList (by decide)).trans
     (by decide),
   (C6_word_pattern_matches_whole_segment "foo".toList "foobar".toList (by decide)).trans
     (by decide),
   (C6_word_pattern_matches_whole_segment "foo".toList "src/foobar".toList (by decide)).trans
     (by decide),
   (C6_word_pattern_matches_whole_segment "foo".toList "myfoo/x".toList (by decide)).trans
     (by decide)⟩

/-- C7, refuted as stated: the pattern `a/b` matches the path `data/bin/x`, in which no
segment `a` is followed by a segment `b`. -/
theorem C7_counterexample :
    adHocMatches "a/b".toList (normalizePath "data/bin/x".toList) = .ok true ∧
    ¬ (["a".toList, "b".toList] <:+: segments "data/bin/x".toList) := by
  decide

/-- C7, amended. The pattern `a/b` matches a path exactly when the normalized path
contains the text `a/b`, that is a segment that ends in `a` followed by a segment that
starts with `b`; in particular it matches every path in which a segment `a` is followed
by a segment `b`. -/
theorem C7_slash_pattern_matches_substring (path : Str) :
    adHocMatches "a/b".toList (normalizePath path)
      = .ok (decide ("a/b".toList <:+: normalizePath path)) ∧
    (["a".toList, "b".toList] <:+: segments path →
      adHocMatches "a/b".toList (normalizePath path) = .ok true) := by
  have hp : ∀ c ∈ "a/b".toList, plainChar c := by
    intro c hc
    have : c = 'a' ∨ c = '/' ∨ c = 'b' := by simpa using hc
    rcases this with rfl | rfl | rfl
    · exact Or.inr (by decide)
    · exact Or.inl rfl
    · exact Or.inr (by decide)
  have key := adHocMatches_slash "a/b".toList path (by decide) hp
  refine ⟨key, fun hadj => ?_⟩
  rw [key]
  have := infix_of_adjacent_segments path "a".toList "b".toList hadj
  simp only [Except.ok.injEq, decide_eq_true_eq]
  exact this

/-- C7 amended, at concrete inputs: `x/a/b/y` has the segments `a`, `b` in a row and is
matched. -/
theorem C7_slash_pattern_matches_substring_witness :
    ["a".toList, "b".toList] <:+: segments "x/a/b/y".toList ∧
    adHocMatches "a/b".toList (normalizePath "x/a/b/y".toList) = .ok true :=
  ⟨by decide, (C7_slash_pattern_matches_substring "x/a/b/y".toList).2 (by decide)⟩

/-- C9, refuted as stated: the pattern `a.c` has no `/` and matches the path `abc`, no
segment of which is `a.c`. -/
theorem C9_counterexample :
    '/' ∉ "a.c".toList ∧
    adHocMatches "a.c".toList (normalizePath "abc".toList) = .ok true ∧
    "a.c".toList ∉ segments "abc".toList := by
  decide

/-- C9, amended. An ad hoc pattern that contains neither `/` nor any other syntax
character of regular expressions (`^ $ \ . * + ? ( ) [ ] { } |`) compiles, and it matches
a path exactly when some segment of the path is equal to the pattern. -/
theorem C9_plain_pattern_matches_whole_segment (pattern path : Str)
    (h : ∀ c ∈ pattern, isSyntaxChar c = false) :
    adHocMatches pattern (normalizePath path) = .ok (decide (pattern ∈ segments path)) :=
  adHocMatches_segment pattern path h

/-- C9 amended, at concrete inputs: the pattern `my-dir 2` (a hyphen, a space) matches
`src/my-dir 2/x` and does not match `src/my-dir 22/x`. -/
theorem C9_plain_pattern_matches_whole_segment_witness :
    (∀ c ∈ "my-dir 2".toList, isSyntaxChar c = false) ∧
    adHocMatches "my-dir 2".toList (normalizePath "src/my-dir 2/x".toList) = .ok true ∧
    adHocMatches "my-dir 2".toList (normalizePath "src/my-dir 22/x".toList) = .ok false :=
  ⟨by decide,
   (C9_plain_pattern_matches_whole_segment "my-dir 2".toList "src/my-dir 2/x".toList
     (by decide)).trans (by decide),
   (C9_plain_pattern_matches_whole_segment "my-dir 2".toList "src/my-dir 22/x".toList
     (by decide)).trans (by decide)⟩

/-- C10, refuted as stated: the pattern `a/.` contains `/` and matches the path `a/b`,
which does not contain the text `a/.`. -/
theorem C10_counterexample :
    '/' ∈ "a/.".toList ∧
    adHocMatches "a/.".toList (normalizePath "a/b".toList) = .ok true ∧
    ¬ ("a/.".toList <:+: normalizePath "a/b".toList) := by
  decide

/-- C10, amended. An ad hoc pattern that contains `/` and, apart from `/`, no syntax
character of regular expressions compiles, and it matches a path exactly when the
pattern occurs as a piece of text in the path after every `\` has been replaced by
`/`. -/
theorem C10_slash_pattern_matches_literally (pattern path : Str) (hs : '/' ∈ pattern)
    (h : ∀ c ∈ pattern, c = '/' ∨ isSyntaxChar c = false) :
    adHocMatches pattern (normalizePath path)
      = .ok (decide (pattern <:+: normalizePath path)) :=
  adHocMatches_slash pattern path hs h

/-- C10 amended, at concrete inputs: `src/gen` matches `app\src\gen\x.js` and does not
match `app/src/x/gen`. -/
theorem C10_slash_pattern_matches_literally_witness :
    '/' ∈ "src/gen".toList ∧
    (∀ c ∈ "src/gen".toList, c = '/' ∨ isSyntaxChar c = false) ∧
    adHocMatches "src/gen".toList (normalizePath "app\\src\\gen\\x.js".toList) = .ok true ∧
    adHocMatches "src/gen".toList (normalizePath "app/src/x/gen".toList) = .ok false :=
  ⟨by decide, by decide,
   (C10_slash_pattern_matches_literally "src/gen".toList "app\\src\\gen\\x.js".toList
     (by decide) (by decide)).trans (by decide),
   (C10_slash_pattern_matches_literally "src/gen".toList "app/src/x/gen".toList
     (by decide) (by decide)).trans (by decide)⟩

theorem shouldSkip_of_skips_false (cfg : Config) (lib : PathLib) (ig : Matcher) (path : Str)
    (h : skips cfg lib ig path = false) :
    shouldSkipTraversalWithFilters cfg lib path ig = .ok false := by
  unfold skips at h
  cases hsw : shouldSkipTraversalWithFilters cfg lib path ig with
  | error e => rw [hsw] at h; simp at h
  | ok b => rw [hsw] at h; simp at h; rw [h]

/-- On a tree of regular files and directories both walks return when every ad hoc
pattern compiles. -/
theorem walks_total (cfg : Config) (lib : PathLib) (ig : Matcher)
    (items : List (Str × Node)) (hreg : ∀ p ∈ items, Regular p.2) (hF : PatternsCompile cfg)
    (dir pfx : Str) (above : List Str) :
    generateTreeLoop cfg lib ig dir pfx items
        = .ok (treeText cfg (reachedIn cfg lib ig dir pfx above items)) ∧
    ∀ acc, getAllFilesLoop cfg lib ig dir items acc
        = .ok (collected cfg lib (reachedIn cfg lib ig dir pfx above items),
            tally lib acc (reachedIn cfg lib ig dir pfx above items)) := by
  rcases walks_regular_eq cfg lib ig items hreg dir pfx above with ⟨e, ⟨path, hp⟩, _⟩ | h
  · rw [shouldSkip_total cfg lib ig hF path] at hp
    simp at hp
  · exact h

theorem collected_paths_regular (cfg : Config) (lib : PathLib) (es : List Reached)
    (h : ∀ e ∈ es, e.kind = .file ∨ e.kind = .directory) :
    (collected cfg lib es).map FileEntry.path
      = (es.filter fun e => decide (e.kind = .file) && !cfg.shouldSkipContent e.path).map
          Reached.path := by
  simp only [collected, counted, List.map_map, List.filter_filter]
  have hf : (es.filter fun e => (!cfg.shouldSkipContent e.path) && decide (e.kind ≠ .directory))
      = es.filter fun e => decide (e.kind = .file) && !cfg.shouldSkipContent e.path := by
    apply List.filter_congr
    intro e he
    rcases h e he with hk | hk <;> simp [hk, Bool.and_comm]
  rw [hf]
  rfl

theorem counted_regular (es : List Reached)
    (h : ∀ e ∈ es, e.kind = .file ∨ e.kind = .directory) :
    counted es = es.filter fun e => decide (e.kind = .file) := by
  unfold counted
  apply List.filter_congr
  intro e he
  rcases h e he with hk | hk <;> simp [hk]

/-- C3. The list, the accumulators and the tree text that the walks return are those of
the reached entries, and a reached entry is not traversal-skipped and lies below no
traversal-skipped directory: an entry at a traversal-skipped path `d` or below it is not
reached, so it gives no element of the list, no line of the text and no contribution to
`totalFiles`, `totalSize` or `fileTypes`. -/
theorem C3_skipped_subtrees_are_invisible (cfg : Config) (lib : PathLib) (ig : Matcher)
    (dir pfx : Str) (items : List (Str × Node)) (acc : Totals) :
    (∀ e ∈ reachedIn cfg lib ig dir pfx [] items,
      shouldSkipTraversalWithFilters cfg lib e.path ig = .ok false ∧
      ∀ a ∈ e.above, shouldSkipTraversalWithFilters cfg lib a ig = .ok false) ∧
    (∀ d, shouldSkipTraversalWithFilters cfg lib d ig = .ok true →
      ∀ e ∈ reachedIn cfg lib ig dir pfx [] items, e.path ≠ d ∧ d ∉ e.above) ∧
    (∀ files acc', getAllFiles cfg lib ig dir (.dir items) acc = .ok (files, acc') →
      files = collected cfg lib (reachedIn cfg lib ig dir pfx [] items) ∧
      acc' = tally lib acc (reachedIn cfg lib ig dir pfx [] items)) ∧
    (∀ text, generateTree cfg lib ig dir pfx (.dir items) = .ok text →
      text = treeText cfg (reachedIn cfg lib ig dir pfx [] items)) := by
  have key : ∀ e ∈ reachedIn cfg lib ig dir pfx [] items,
      shouldSkipTraversalWithFilters cfg lib e.path ig = .ok false ∧
      ∀ a ∈ e.above, shouldSkipTraversalWithFilters cfg lib a ig = .ok false := by
    intro e he
    obtain ⟨h1, h2⟩ := reachedIn_not_skipped cfg lib ig items dir pfx [] e he
    refine ⟨shouldSkip_of_skips_false _ _ _ _ h1, fun a ha => ?_⟩
    rcases h2 a ha with h | h
    · simp at h
    · exact shouldSkip_of_skips_false _ _ _ _ h
  refine ⟨key, fun d hd e he => ?_, fun files acc' h => ?_, fun text h => ?_⟩
  · obtain ⟨h1, h2⟩ := key e he
    constructor
    · intro hpath
      rw [hpath, hd] at h1
      simp at h1
    · intro hmem
      have := h2 d hmem
      rw [hd] at this
      simp at this
  · rw [getAllFiles] at h
    exact getAllFilesLoop_ok cfg lib ig items dir pfx [] acc files acc' h
  · rw [generateTree] at h
    exact generateTreeLoop_ok cfg lib ig items dir pfx [] text h

/-- C3, at a concrete input: in the example tree `temp` is skipped by an ad hoc filter,
`src/node_modules` by the default rule and `debug.log` by the gitignore rule; the list
holds `cache.bin` and `src/index.txt` only and three files are counted. -/
theorem C3_skipped_subtrees_are_invisible_witness :
    getAllFiles exampleConfig exampleLib logRule ".".toList (.dir exampleItems) zeroTotals
      = .ok ([⟨"cache.bin".toList, 10, ".bin".toList⟩,
              ⟨"src/index.txt".toList, 5, ".txt".toList⟩],
          ⟨3, 22, [(".bin".toList, 1), (".txt".toList, 1), (".png".toList, 1)], []⟩) ∧
    [⟨"cache.bin".toList, 10, ".bin".toList⟩, ⟨"src/index.txt".toList, 5, ".txt".toList⟩]
      = collected exampleConfig exampleLib
          (reachedIn exampleConfig exampleLib logRule ".".toList [] [] exampleItems) :=
  have h : getAllFiles exampleConfig exampleLib logRule ".".toList (.dir exampleItems)
      zeroTotals
        = .ok ([⟨"cache.bin".toList, 10, ".bin".toList⟩,
                ⟨"src/index.txt".toList, 5, ".txt".toList⟩],
            ⟨3, 22, [(".bin".toList, 1), (".txt".toList, 1), (".png".toList, 1)], []⟩) := by
    decide
  ⟨h, ((C3_skipped_subtrees_are_invisible exampleConfig exampleLib logRule ".".toList []
      exampleItems zeroTotals).2.2.1 _ _ h).1⟩

/-- C4. On a tree of regular files and directories the two passes agree. Either both
fail, on the same ad hoc pattern that does not compile, or both return: the tree text is
made of the lines of the reached entries, a line ends with the marker exactly when it is
the line of a file whose content is skipped, the paths of the returned list are those of
the file lines without the marker, in the same order, and `totalFiles` grows by the
number of file lines. When every ad hoc pattern compiles, both return. -/
theorem C4_passes_agree (cfg : Config) (lib : PathLib) (ig : Matcher) (dir pfx : Str)
    (items : List (Str × Node)) (acc : Totals) (hreg : ∀ p ∈ items, Regular p.2) :
    ((∃ e, generateTree cfg lib ig dir pfx (.dir items) = .error (.pattern e) ∧
        getAllFiles cfg lib ig dir (.dir items) acc = .error (.pattern e)) ∨
      (∃ files acc',
        generateTree cfg lib ig dir pfx (.dir items)
          = .ok (treeText cfg (reachedIn cfg lib ig dir pfx [] items)) ∧
        getAllFiles cfg lib ig dir (.dir items) acc = .ok (files, acc') ∧
        files.map FileEntry.path
          = ((reachedIn cfg lib ig dir pfx [] items).filter fun e =>
              decide (e.kind = .file) && !cfg.shouldSkipContent e.path).map Reached.path ∧
        acc'.totalFiles = acc.totalFiles
          + ((reachedIn cfg lib ig dir pfx [] items).filter fun e =>
              decide (e.kind = .file)).length)) ∧
    (∀ e ∈ reachedIn cfg lib ig dir pfx [] items,
      (marker ++ ['\n'] <:+ e.line cfg ↔
        e.kind = .file ∧ cfg.shouldSkipContent e.path = true)) ∧
    (PatternsCompile cfg →
      (∃ text, generateTree cfg lib ig dir pfx (.dir items) = .ok text) ∧
      (∃ r, getAllFiles cfg lib ig dir (.dir items) acc = .ok r)) := by
  have hk := reachedIn_regular_kind cfg lib ig items hreg dir pfx []
  refine ⟨?_, fun e he => ?_, fun hF => ?_⟩
  · rw [generateTree, getAllFiles]
    rcases walks_regular_eq cfg lib ig items hreg dir pfx [] with ⟨e, _, h1, h2⟩ | ⟨h1, h2⟩
    · exact Or.inl ⟨e, h1, h2 acc⟩
    · right
      refine ⟨_, _, h1, h2 acc, collected_paths_regular cfg lib _ hk, ?_⟩
      rw [tally_totalFiles, counted_regular _ hk]
  · rcases hk e he with h | h
    · simp only [Reached.line, h, if_true, true_and]
      exact marker_suffix_fileLine cfg _ _ _ _
    · simp only [Reached.line, h, reduceCtorEq, if_false, false_and, iff_false]
      exact marker_not_suffix_dirLine _ _ _
  · obtain ⟨h1, h2⟩ := walks_total cfg lib ig items hreg hF dir pfx []
    rw [generateTree, getAllFiles]
    exact ⟨⟨_, h1⟩, ⟨_, h2 acc⟩⟩

theorem exampleItems_regular : ∀ p ∈ exampleItems, Regular p.2 := by
  intro p hp
  simp only [exampleItems, List.mem_cons, List.mem_singleton, List.not_mem_nil, or_false] at hp
  rcases hp with rfl | rfl | rfl | rfl
  · exact .dir _ (fun q hq => by
      simp only [List.mem_singleton] at hq
      subst hq
      exact .file _)
  · exact .file _
  · exact .dir _ (fun q hq => by
      simp only [List.mem_cons, List.mem_singleton, List.not_mem_nil, or_false] at hq
      rcases hq with rfl | rfl | rfl
      · exact .file _
      · exact .file _
      · exact .dir _ (fun r hr => by
          simp only [List.mem_singleton] at hr
          subst hr
          exact .file _))
  · exact .file _

/-- C4, at a concrete input: on the example tree both passes return. -/
theorem C4_passes_agree_witness :
    (∀ p ∈ exampleItems, Regular p.2) ∧ PatternsCompile exampleConfig ∧
    (∃ text, generateTree exampleConfig exampleLib logRule ".".toList [] (.dir exampleItems)
      = .ok text) ∧
    (∃ r, getAllFiles exampleConfig exampleLib logRule ".".toList (.dir exampleItems)
      zeroTotals = .ok r) :=
  ⟨exampleItems_regular, exampleConfig_compiles,
   (C4_passes_agree exampleConfig exampleLib logRule ".".toList [] exampleItems zeroTotals
      exampleItems_regular).2.2 exampleConfig_compiles⟩

theorem mem_collected_iff (cfg : Config) (lib : PathLib) (es : List Reached) (f : FileEntry) :
    f ∈ collected cfg lib es ↔
      ∃ e ∈ es, e.kind ≠ .directory ∧ cfg.shouldSkipContent e.path = false ∧ e.entry lib = f := by
  simp only [collected, counted, List.mem_map, List.mem_filter, decide_eq_true_eq,
    Bool.not_eq_true']
  constructor
  · rintro ⟨e, ⟨⟨h1, h2⟩, h3⟩, h4⟩
    exact ⟨e, h1, h2, h3, h4⟩
  · rintro ⟨e, h1, h2, h3, h4⟩
    exact ⟨e, ⟨⟨h1, h2⟩, h3⟩, h4⟩

/-- C5. Let `e` be a file that the walk reaches. When `generateTree` returns, its text
holds the line of `e`, and that line ends with the marker exactly when
`shouldSkipContent` holds of the file; the line of a reached directory never ends with
the marker. When `getAllFiles` returns, `e` is among the counted entries, which make up
the growth of `totalFiles`, `totalSize` and `fileTypes`; the returned list holds no
element with the path of `e` when `shouldSkipContent` holds of it, and holds the element
of `e` otherwise. Both walks return on a tree of regular files and directories when
every ad hoc pattern compiles. -/
theorem C5_content_skip_is_listed_counted_not_collected (cfg : Config) (lib : PathLib)
    (ig : Matcher) (dir pfx : Str) (items : List (Str × Node)) (acc : Totals) (e : Reached)
    (he : e ∈ reachedIn cfg lib ig dir pfx [] items) :
    (∀ text, generateTree cfg lib ig dir pfx (.dir items) = .ok text →
      ∃ before after, reachedIn cfg lib ig dir pfx [] items = before ++ e :: after ∧
        text = treeText cfg before ++ e.line cfg ++ treeText cfg after) ∧
    (e.kind = .file →
      (marker ++ ['\n'] <:+ e.line cfg ↔ cfg.shouldSkipContent e.path = true)) ∧
    (e.kind = .directory → ¬ marker ++ ['\n'] <:+ e.line cfg) ∧
    (∀ files acc', getAllFiles cfg lib ig dir (.dir items) acc = .ok (files, acc') →
      e.kind = .file →
        e ∈ counted (reachedIn cfg lib ig dir pfx [] items) ∧
        acc'.totalFiles
          = acc.totalFiles + (counted (reachedIn cfg lib ig dir pfx [] items)).length ∧
        acc'.totalSize = acc.totalSize
          + ((counted (reachedIn cfg lib ig dir pfx [] items)).map Reached.size).sum ∧
        (∀ x, countOf x acc'.fileTypes = countOf x acc.fileTypes
          + ((counted (reachedIn cfg lib ig dir pfx [] items)).filter
              fun r => r.ext lib = x).length) ∧
        (cfg.shouldSkipContent e.path = true → ∀ f ∈ files, f.path ≠ e.path) ∧
        (cfg.shouldSkipContent e.path = false → e.entry lib ∈ files)) ∧
    ((∀ p ∈ items, Regular p.2) → PatternsCompile cfg →
      (∃ text, generateTree cfg lib ig dir pfx (.dir items) = .ok text) ∧
      (∃ r, getAllFiles cfg lib ig dir (.dir items) acc = .ok r)) := by
  refine ⟨fun text h => ?_, fun hk => ?_, fun hk => ?_, fun files acc' h hk => ?_,
    fun hreg hF => ?_⟩
  · rw [generateTree] at h
    have ht := generateTreeLoop_ok cfg lib ig items dir pfx [] text h
    obtain ⟨before, after, hsplit⟩ := List.append_of_mem he
    refine ⟨before, after, hsplit, ?_⟩
    rw [ht, hsplit, treeText_append, treeText_cons]
    simp
  · simp only [Reached.line, hk, if_true]
    exact marker_suffix_fileLine cfg _ _ _ _
  · simp only [Reached.line, hk, reduceCtorEq, if_false]
    exact marker_not_suffix_dirLine _ _ _
  · rw [getAllFiles] at h
    obtain ⟨h1, h2⟩ := getAllFilesLoop_ok cfg lib ig items dir pfx [] acc files acc' h
    have hne : e.kind ≠ .directory := by simp [hk]
    refine ⟨?_, ?_, ?_, fun x => ?_, fun hc f hf hpath => ?_, fun hc => ?_⟩
    · simp [counted, he, hk]
    · rw [h2, tally_totalFiles]
    · rw [h2, tally_totalSize]
    · rw [h2, tally_fileTypes]
    · rw [h1, mem_collected_iff] at hf
      obtain ⟨r, _, _, hr, rfl⟩ := hf
      have : r.path = e.path := hpath
      rw [this, hc] at hr
      exact absurd hr (by simp)
    · rw [h1, mem_collected_iff]
      exact ⟨e, he, hne, hc, rfl⟩
  · obtain ⟨h1, h2⟩ := walks_total cfg lib ig items hreg hF dir pfx []
    rw [generateTree, getAllFiles]
    exact ⟨⟨_, h1⟩, ⟨_, h2 acc⟩⟩

/-- The entry of `src/logo.png` in the example tree. -/
theorem logo_reached :
    (⟨"src/logo.png".toList, "logo.png".toList, "│   ".toList, false, .file, 7,
        ["src".toList]⟩ : Reached)
      ∈ reachedIn exampleConfig exampleLib logRule ".".toList [] [] exampleItems := by
  decide

/-- C5, at a concrete input: `src/logo.png` of the example tree is reached, its content
is skipped, and the list `getAllFiles` returns has no element with its path. -/
theorem C5_content_skip_is_listed_counted_not_collected_witness :
    exampleConfig.shouldSkipContent "src/logo.png".toList = true ∧
    ∀ f ∈ [(⟨"cache.bin".toList, 10, ".bin".toList⟩ : FileEntry),
        ⟨"src/index.txt".toList, 5, ".txt".toList⟩], f.path ≠ "src/logo.png".toList :=
  have h : getAllFiles exampleConfig exampleLib logRule ".".toList (.dir exampleItems)
      zeroTotals
        = .ok ([⟨"cache.bin".toList, 10, ".bin".toList⟩,
                ⟨"src/index.txt".toList, 5, ".txt".toList⟩],
            ⟨3, 22, [(".bin".toList, 1), (".txt".toList, 1), (".png".toList, 1)], []⟩) := by
    decide
  ⟨by decide,
   ((C5_content_skip_is_listed_counted_not_collected exampleConfig exampleLib logRule
      ".".toList [] exampleItems zeroTotals _ logo_reached).2.2.2.1 _ _ h rfl).2.2.2.2.1
      (by decide)⟩

theorem filters_temp_cache :
    additionalFiltersOf (some "temp,cache".toList) = ["temp".toList, "cache".toList] := by
  decide

/-- C8, refuted as stated: with the filters of `--filter temp,cache`, a default rule and
a matcher that do not match it, the file `cache.bin` directly under the root is not
traversal-skipped. -/
theorem C8_counterexample :
    exampleConfig.additionalFilters = ["temp".toList, "cache".toList] ∧
    ¬ (shouldSkipTraversalWithFilters exampleConfig exampleLib
          (exampleLib.join exampleConfig.folderPath "temp".toList) noRules = .ok true ∧
       shouldSkipTraversalWithFilters exampleConfig exampleLib
          (exampleLib.join exampleConfig.folderPath "cache.bin".toList) noRules = .ok true) := by
  decide

/-- C8, amended. With the filters of `--filter temp,cache`, the directory `temp` directly
under the root is traversal-skipped by the ad hoc filters alone: it gets no line from
`generateTree` and nothing in it is counted by `getAllFiles`. The file `cache.bin` is not
matched by the ad hoc filters, which compare whole segments: when the default rule and
the gitignore matcher do not match it, and no segment of the root path is `temp` or
`cache`, it is not skipped, it gets a line and it is counted in `totalFiles` and
`totalSize`. -/
theorem C8_temp_skipped_cache_bin_kept (cfg : Config) (lib : PathLib) (ig : Matcher)
    (pfx : Str) (inTemp : List (Str × Node)) (size : Nat) (acc : Totals)
    (hF : cfg.additionalFilters = additionalFiltersOf (some "temp,cache".toList))
    (hT : "temp".toList ∈ segments (lib.join cfg.folderPath "temp".toList))
    (hC1 : "temp".toList ∉ segments (lib.join cfg.folderPath "cache.bin".toList))
    (hC2 : "cache".toList ∉ segments (lib.join cfg.folderPath "cache.bin".toList))
    (hdef : cfg.shouldSkipTraversal (lib.join cfg.folderPath "cache.bin".toList) = false)
    (hig : ig (lib.relative cfg.folderPath (lib.join cfg.folderPath "cache.bin".toList))
      = false) :
    shouldSkipTraversalWithFilters cfg lib (lib.join cfg.folderPath "temp".toList) ig
      = .ok true ∧
    shouldSkipTraversalWithFilters cfg lib (lib.join cfg.folderPath "cache.bin".toList) ig
      = .ok false ∧
    generateTree cfg lib ig cfg.folderPath pfx
        (.dir [("temp".toList, .dir inTemp), ("cache.bin".toList, .file size)])
      = .ok (fileLine cfg pfx true "cache.bin".toList
          (lib.join cfg.folderPath "cache.bin".toList)) ∧
    ∃ files acc',
      getAllFiles cfg lib ig cfg.folderPath
          (.dir [("temp".toList, .dir inTemp), ("cache.bin".toList, .file size)]) acc
        = .ok (files, acc') ∧
      acc'.totalFiles = acc.totalFiles + 1 ∧ acc'.totalSize = acc.totalSize + size := by
  have hc : PatternsCompile cfg := by
    intro f hf
    rw [hF, filters_temp_cache] at hf
    rcases List.mem_cons.mp hf with rfl | hf
    · exact ⟨_, rfl⟩
    · rw [List.mem_singleton.mp hf]
      exact ⟨_, rfl⟩
  have hmatch : ∀ p : Str,
      (∃ f ∈ cfg.additionalFilters, adHocMatches f (normalizePath p) = .ok true) ↔
        ("temp".toList ∈ segments p ∨ "cache".toList ∈ segments p) := by
    intro p
    rw [hF, filters_temp_cache]
    simp only [List.mem_cons, List.mem_singleton, List.not_mem_nil, or_false, exists_eq_or_imp,
      exists_eq_left, adHocMatches_segment "temp".toList p (by decide),
      adHocMatches_segment "cache".toList p (by decide), Except.ok.injEq, decide_eq_true_eq]
  have h1 : shouldSkipTraversalWithFilters cfg lib (lib.join cfg.folderPath "temp".toList) ig
      = .ok true := by
    rw [shouldSkip_total cfg lib ig hc, decide_eq_true ((hmatch _).mpr (Or.inl hT))]
    simp only [Bool.or_true, Bool.true_or]
  have h2 : shouldSkipTraversalWithFilters cfg lib
      (lib.join cfg.folderPath "cache.bin".toList) ig = .ok false := by
    have hn : ¬ ∃ f ∈ cfg.additionalFilters,
        adHocMatches f (normalizePath (lib.join cfg.folderPath "cache.bin".toList))
          = .ok true := by
      rw [hmatch]
      exact fun h => h.elim hC1 hC2
    rw [shouldSkip_total cfg lib ig hc, decide_eq_false hn, hdef, hig]
    simp only [Bool.or_false, Bool.and_false]
  refine ⟨h1, h2, ?_, ?_⟩
  · simp only [generateTree, generateTreeLoop, h1, h2]
    simp
  · refine ⟨_, _, by simp only [getAllFiles, getAllFilesLoop, h1, h2]; rfl, ?_, ?_⟩ <;>
      simp [Totals.record]

/-- C8 amended, at a concrete input: the root `.` with the directory `temp` and the file
`cache.bin`. -/
theorem C8_temp_skipped_cache_bin_kept_witness :
    generateTree exampleConfig exampleLib noRules exampleConfig.folderPath []
        (.dir [("temp".toList, .dir [("scratch.txt".toList, .file 4)]),
          ("cache.bin".toList, .file 10)])
      = .ok "└── cache.bin \n".toList :=
  (C8_temp_skipped_cache_bin_kept exampleConfig exampleLib noRules []
    [("scratch.txt".toList, .file 4)] 10 zeroTotals rfl (by decide) (by decide) (by decide)
    (by decide) (by decide)).2.2.1.trans (by decide)

/-- C11, at a failing input: with `--filter temp,cache` the last item of the listing,
`temp`, is traversal-skipped, and the last line that is written keeps the connector
`├── `; below the directory `src`, which is the last entry written for the root, the
lines are indented with the pipe continuation. -/
theorem C11_last_written_entry_keeps_mid_connector :
    shouldSkipTraversalWithFilters exampleConfig exampleLib
      (exampleLib.join ".".toList "temp".toList) noRules = .ok true ∧
    generateTree exampleConfig exampleLib noRules ".".toList []
        (.dir [("a.txt".toList, .file 1), ("temp".toList, .dir [])])
      = .ok "├── a.txt \n".toList ∧
    generateTree exampleConfig exampleLib noRules ".".toList []
        (.dir [("src".toList, .dir [("x".toList, .file 1)]), ("temp".toList, .dir [])])
      = .ok "├── src/\n│   └── x \n".toList := by
  decide

theorem sum_bump (ext : Str) : ∀ (ft : List (Str × Nat)),
    ((bump ext ft).map Prod.snd).sum = (ft.map Prod.snd).sum + 1
  | [] => by simp [bump]
  | (k, n) :: rest => by
    have ih := sum_bump ext rest
    by_cases h : k = ext
    · simp [bump, h]
      omega
    · simp [bump, h, ih]
      omega

theorem foldl_record_sum (lib : PathLib) : ∀ (es : List Reached) (acc : Totals),
    ((es.foldl (fun a e => a.record (lib.toLowerCase (lib.extname e.path)) e.size)
        acc).fileTypes.map Prod.snd).sum
      = (acc.fileTypes.map Prod.snd).sum + es.length
  | [], acc => by simp
  | e :: es, acc => by
    rw [List.foldl_cons, foldl_record_sum lib es]
    simp [Totals.record, sum_bump]
    omega

theorem collected_length_le (cfg : Config) (lib : PathLib) (es : List Reached) :
    (collected cfg lib es).length ≤ (counted es).length := by
  simp only [collected, List.length_map]
  exact List.length_filter_le _ _

/-- C12. When `getAllFiles` returns from a run that started with zeroed accumulators,
`totalFiles` is the number of the reached entries that are not directories (the entries
the program treats as files), whatever `shouldSkipContent` says of them; `totalSize` is
the sum of their sizes; `fileTypes[x]` is the number of them whose lower-cased extension
is `x`; the counts of `fileTypes` add up to `totalFiles`; the returned list is not longer
than `totalFiles`. A reached entry is not traversal-skipped and lies below no
traversal-skipped directory. -/
theorem C12_totals_count_reached_files (cfg : Config) (lib : PathLib) (ig : Matcher)
    (dir : Str) (items : List (Str × Node)) (files : List FileEntry) (acc' : Totals)
    (hG : getAllFiles cfg lib ig dir (.dir items) ⟨0, 0, [], []⟩ = .ok (files, acc')) :
    acc'.totalFiles = (counted (reachedIn cfg lib ig dir [] [] items)).length ∧
    acc'.totalSize = ((counted (reachedIn cfg lib ig dir [] [] items)).map Reached.size).sum ∧
    (∀ x, countOf x acc'.fileTypes
      = ((counted (reachedIn cfg lib ig dir [] [] items)).filter fun e => e.ext lib = x).length) ∧
    (acc'.fileTypes.map Prod.snd).sum = acc'.totalFiles ∧
    files.length ≤ acc'.totalFiles ∧
    (∀ e ∈ counted (reachedIn cfg lib ig dir [] [] items),
      e.kind ≠ .directory ∧
      shouldSkipTraversalWithFilters cfg lib e.path ig = .ok false ∧
      ∀ a ∈ e.above, shouldSkipTraversalWithFilters cfg lib a ig = .ok false) := by
  rw [getAllFiles] at hG
  obtain ⟨h1, h2⟩ := getAllFilesLoop_ok cfg lib ig items dir [] [] _ files acc' hG
  have hf : acc'.totalFiles = (counted (reachedIn cfg lib ig dir [] [] items)).length := by
    rw [h2, tally_totalFiles]
    simp
  refine ⟨hf, ?_, fun x => ?_, ?_, ?_, fun e he => ?_⟩
  · rw [h2, tally_totalSize]
    simp
  · rw [h2, tally_fileTypes]
    simp [countOf]
  · rw [hf, h2]
    unfold tally
    rw [foldl_record_sum]
    simp
  · rw [hf, h1]
    exact collected_length_le cfg lib _
  · have hmem : e ∈ reachedIn cfg lib ig dir [] [] items ∧ e.kind ≠ .directory := by
      simpa [counted] using he
    obtain ⟨s1, s2⟩ := reachedIn_not_skipped cfg lib ig items dir [] [] e hmem.1
    refine ⟨hmem.2, shouldSkip_of_skips_false _ _ _ _ s1, fun a ha => ?_⟩
    rcases s2 a ha with h | h
    · simp at h
    · exact shouldSkip_of_skips_false _ _ _ _ h

/-- C12, at a concrete input: on the example tree three files are counted, with 22 bytes
in all, and two of them are returned. -/
theorem C12_totals_count_reached_files_witness :
    getAllFiles exampleConfig exampleLib logRule ".".toList (.dir exampleItems) ⟨0, 0, [], []⟩
      = .ok ([⟨"cache.bin".toList, 10, ".bin".toList⟩,
              ⟨"src/index.txt".toList, 5, ".txt".toList⟩],
          ⟨3, 22, [(".bin".toList, 1), (".txt".toList, 1), (".png".toList, 1)], []⟩) ∧
    (counted (reachedIn exampleConfig exampleLib logRule ".".toList [] [] exampleItems)).length
      = 3 :=
  have h : getAllFiles exampleConfig exampleLib logRule ".".toList (.dir exampleItems)
      ⟨0, 0, [], []⟩
        = .ok ([⟨"cache.bin".toList, 10, ".bin".toList⟩,
                ⟨"src/index.txt".toList, 5, ".txt".toList⟩],
            ⟨3, 22, [(".bin".toList, 1), (".txt".toList, 1), (".png".toList, 1)], []⟩) := by
    decide
  ⟨h, (C12_totals_count_reached_files exampleConfig exampleLib logRule ".".toList
    exampleItems _ _ h).1.symm⟩

theorem appendFiles_eq (cfg : Config) (lib : PathLib) (readFile : Str → Option Str) :
    ∀ (files : List FileEntry) (output : Str),
      appendFiles cfg lib readFile output files
        = output ++ contentSection cfg lib readFile files
  | [], output => by simp [appendFiles, contentSection]
  | file :: rest, output => by
    have ih := appendFiles_eq cfg lib readFile rest
    unfold appendFiles
    cases h : readFile file.path with
    | none =>
      simp only [ih]
      simp [contentSection, h]
    | some content =>
      simp only [ih]
      simp [contentSection, h]

/-- The run of `main` when the root is a directory and both walks return. -/
theorem main_of_walks (cfg : Config) (lib : PathLib) (ignores : Rules → Matcher)
    (outputName : Option Str) (world : World) (items : List (Str × Node))
    (files : List FileEntry) (totals : Totals) (tree : Str)
    (hroot : world.root = .dir items)
    (hG : getAllFiles cfg lib (ignores (loadGitignore world.gitignore).1) cfg.folderPath
      (.dir items) ⟨0, 0, [], []⟩ = .ok (files, totals))
    (hT : generateTree cfg lib (ignores (loadGitignore world.gitignore).1) cfg.folderPath []
      (.dir items) = .ok tree) :
    main cfg lib ignores outputName world
      = ⟨some (outputFileNameOf outputName,
            reportHead totals.totalFiles totals.totalSize tree
              ++ contentSection cfg lib world.readFile files),
          if world.writeFile (outputFileNameOf outputName)
              (reportHead totals.totalFiles totals.totalSize tree
                ++ contentSection cfg lib world.readFile files) then 0 else 1⟩ := by
  unfold main
  rw [hroot]
  simp only [hG, hT, appendFiles_eq]
  split <;> rfl

/-- C13. When the root is a directory, both walks return, every collected file is read
and the report is written, the text given to `fs.writeFile` is the title and the
statistics (the number `totalFiles` and `formatSize(totalSize)`), the legend, the tree
text, and then, for each collected file in the order of collection, its path relative to
the root on a line, the separator line, its content, a line break and the separator line
again. -/
theorem C13_report_layout (cfg : Config) (lib : PathLib) (ignores : Rules → Matcher)
    (outputName : Option Str) (world : World) (items : List (Str × Node))
    (files : List FileEntry) (totals : Totals) (tree : Str) (content : Str → Str)
    (hroot : world.root = .dir items)
    (hG : getAllFiles cfg lib (ignores (loadGitignore world.gitignore).1) cfg.folderPath
      (.dir items) ⟨0, 0, [], []⟩ = .ok (files, totals))
    (hT : generateTree cfg lib (ignores (loadGitignore world.gitignore).1) cfg.folderPath []
      (.dir items) = .ok tree)
    (hread : ∀ f ∈ files, world.readFile f.path = some (content f.path))
    (hwrite : ∀ name data, world.writeFile name data = true) :
    main cfg lib ignores outputName world
      = ⟨some (outputFileNameOf outputName,
          "Project Overview\n===============\n\n".toList
            ++ "Project Statistics:\n".toList
            ++ ("Total Files: ".toList ++ Nat.toDigits 10 totals.totalFiles ++ ['\n'])
            ++ ("Total Size: ".toList ++ formatSize totals.totalSize ++ ['\n', '\n'])
            ++ "\nFolder Structure (Tree)\n=====================\n".toList
            ++ "Legend: ✗ = Excluded from output\n\n".toList
            ++ tree
            ++ "\n==============\n".toList
            ++ (files.map fun f =>
                lib.relative cfg.folderPath f.path ++ ['\n'] ++ separatorLine
                  ++ content f.path ++ ['\n'] ++ separatorLine).flatten), 0⟩ := by
  rw [main_of_walks cfg lib ignores outputName world items files totals tree hroot hG hT,
    hwrite]
  have hc : contentSection cfg lib world.readFile files
      = (files.map fun f =>
          lib.relative cfg.folderPath f.path ++ ['\n'] ++ separatorLine
            ++ content f.path ++ ['\n'] ++ separatorLine).flatten := by
    unfold contentSection
    congr 1
    clear hG
    induction files with
    | nil => rfl
    | cons f rest ih =>
      have hf := hread f (List.mem_cons_self _ _)
      have hrest := ih (fun g hg => hread g (List.mem_cons_of_mem _ hg))
      simp only [List.filterMap_cons, hf, Option.map_some', List.map_cons, hrest, fileBlock]
  rw [hc]
  rfl

theorem scenario_getAllFiles :
    getAllFiles defaultConfig exampleLib (exampleIgnores (loadGitignore scenarioWorld.gitignore).1)
        defaultConfig.folderPath
        (.dir [ ("src".toList, .dir [("index.txt".toList, .file 5)]),
          ("node_modules".toList,
            .dir [("pkg".toList, .dir [("file.js".toList, .file 20)])]),
          ("debug.log".toList, .file 3) ]) ⟨0, 0, [], []⟩
      = .ok ([⟨"src/index.txt".toList, 5, ".txt".toList⟩], ⟨1, 5, [(".txt".toList, 1)], []⟩) := by
  decide

theorem scenario_generateTree :
    generateTree defaultConfig exampleLib (exampleIgnores (loadGitignore scenarioWorld.gitignore).1)
        defaultConfig.folderPath []
        (.dir [ ("src".toList, .dir [("index.txt".toList, .file 5)]),
          ("node_modules".toList,
            .dir [("pkg".toList, .dir [("file.js".toList, .file 20)])]),
          ("debug.log".toList, .file 3) ])
      = .ok "├── src/\n│   └── index.txt \n".toList := by
  decide

set_option maxRecDepth 100000 in
/-- C13, at the scenario of the specification: `src/index.txt` holds `hello`,
`node_modules` is pruned, `debug.log` is ignored; the content `hello` stands between its
two separator lines. -/
theorem C13_report_layout_witness :
    main defaultConfig exampleLib exampleIgnores none scenarioWorld
      = ⟨some ("contextify-output.txt".toList,
          ("Project Overview\n===============\n\nProject Statistics:\nTotal Files: 1\n"
            ++ "Total Size: 5 B\n\n\nFolder Structure (Tree)\n=====================\n"
            ++ "Legend: ✗ = Excluded from output\n\n├── src/\n│   └── index.txt \n"
            ++ "\n==============\nsrc/index.txt\n"
            ++ "---------------------------------------------------------\nhello\n"
            ++ "---------------------------------------------------------\n").toList), 0⟩ :=
  (C13_report_layout defaultConfig exampleLib exampleIgnores none scenarioWorld _ _ _ _
    (fun _ => "hello".toList) rfl scenario_getAllFiles scenario_generateTree (by decide)
    (fun _ _ => rfl)).trans (by decide)

/-- C14. When the root is a directory and both walks return, `main` calls `fs.writeFile`
whatever reads fail, and the text it writes is the head of the report followed by the
blocks of the files whose read succeeded, in the order of collection: a file whose read
fails adds nothing, and the text is the one written when the files whose read fails are
not in the list. -/
theorem C14_failed_reads_are_passed_over (cfg : Config) (lib : PathLib)
    (ignores : Rules → Matcher) (outputName : Option Str) (world : World)
    (items : List (Str × Node)) (files : List FileEntry) (totals : Totals) (tree : Str)
    (hroot : world.root = .dir items)
    (hG : getAllFiles cfg lib (ignores (loadGitignore world.gitignore).1) cfg.folderPath
      (.dir items) ⟨0, 0, [], []⟩ = .ok (files, totals))
    (hT : generateTree cfg lib (ignores (loadGitignore world.gitignore).1) cfg.folderPath []
      (.dir items) = .ok tree) :
    (main cfg lib ignores outputName world).writeCall
      = some (outputFileNameOf outputName,
          reportHead totals.totalFiles totals.totalSize tree
            ++ (files.filterMap fun f =>
                (world.readFile f.path).map
                  (fileBlock (lib.relative cfg.folderPath f.path))).flatten) ∧
    appendFiles cfg lib world.readFile (reportHead totals.totalFiles totals.totalSize tree) files
      = appendFiles cfg lib world.readFile (reportHead totals.totalFiles totals.totalSize tree)
          (files.filter fun f => (world.readFile f.path).isSome) ∧
    ((main cfg lib ignores outputName world).exitCode = 0 ↔
      world.writeFile (outputFileNameOf outputName)
        (reportHead totals.totalFiles totals.totalSize tree
          ++ contentSection cfg lib world.readFile files) = true) := by
  rw [main_of_walks cfg lib ignores outputName world items files totals tree hroot hG hT]
  refine ⟨rfl, ?_, ?_⟩
  · rw [appendFiles_eq, appendFiles_eq]
    congr 1
    unfold contentSection
    congr 1
    clear hG
    induction files with
    | nil => rfl
    | cons f rest ih =>
      cases h : world.readFile f.path with
      | none => simp [List.filter_cons, h, ih]
      | some c => simp [List.filter_cons, h, ih]
  · simp only
    split <;> simp_all

/-- The world of the scenario with a second collected file, `src/secret.txt`, whose read
fails. -/
theorem unreadable_getAllFiles :
    getAllFiles defaultConfig exampleLib (exampleIgnores (loadGitignore scenarioWorld.gitignore).1)
        defaultConfig.folderPath
        (.dir [("src".toList,
          .dir [("index.txt".toList, .file 5), ("secret.txt".toList, .file 9)])])
        ⟨0, 0, [], []⟩
      = .ok ([⟨"src/index.txt".toList, 5, ".txt".toList⟩,
              ⟨"src/secret.txt".toList, 9, ".txt".toList⟩],
          ⟨2, 14, [(".txt".toList, 2)], []⟩) := by
  decide

theorem unreadable_generateTree :
    generateTree defaultConfig exampleLib (exampleIgnores (loadGitignore scenarioWorld.gitignore).1)
        defaultConfig.folderPath []
        (.dir [("src".toList,
          .dir [("index.txt".toList, .file 5), ("secret.txt".toList, .file 9)])])
      = .ok "└── src/\n    ├── index.txt \n    └── secret.txt \n".toList := by
  decide

set_option maxRecDepth 100000 in
/-- C14, at a concrete input: `src/secret.txt` is collected and cannot be read; the
report is written with the block of `src/index.txt` only. -/
theorem C14_failed_reads_are_passed_over_witness :
    (main defaultConfig exampleLib exampleIgnores none
        { scenarioWorld with
          root := .dir [("src".toList,
            .dir [("index.txt".toList, .file 5), ("secret.txt".toList, .file 9)])] }).writeCall
      = some ("contextify-output.txt".toList,
          reportHead 2 14 "└── src/\n    ├── index.txt \n    └── secret.txt \n".toList
            ++ fileBlock "src/index.txt".toList "hello".toList) :=
  (C14_failed_reads_are_passed_over defaultConfig exampleLib exampleIgnores none
    { scenarioWorld with
      root := .dir [("src".toList,
        .dir [("index.txt".toList, .file 5), ("secret.txt".toList, .file 9)])] }
    _ _ _ _ rfl unreadable_getAllFiles unreadable_generateTree).1.trans (by decide)

theorem loadGitignore_enoent (e : ReadError) (h : e.code = "ENOENT".toList) :
    loadGitignore (.error e) = ([], []) := by
  unfold loadGitignore
  simp only [ne_eq, h, not_true_eq_false, if_false]

theorem loadGitignore_other (e : ReadError) (h : e.code ≠ "ENOENT".toList) :
    loadGitignore (.error e)
      = ([], [.warn ("Warning: Could not read .gitignore: ".toList ++ e.message)]) := by
  unfold loadGitignore
  simp only [ne_eq, h, not_false_eq_true, if_true]

/-- C18. `loadGitignore` returns an instance for every outcome of the read. After a read
that succeeds the instance holds the content of the file and nothing else, and no
warning is written. After a read that fails the instance is the empty `ignore()`, which
ignores no path, and a warning is written exactly when the code of the error is not
`ENOENT`. -/
theorem C18_loadGitignore (ignores : Rules → Matcher) (hempty : ∀ p, ignores [] p = false)
    (read : Except ReadError Str) :
    (∀ content, read = .ok content →
      (loadGitignore read).1 = [content] ∧ ∀ t, Console.warn t ∉ (loadGitignore read).2) ∧
    (∀ e, read = .error e →
      (loadGitignore read).1 = [] ∧
      (∀ p, ignores (loadGitignore read).1 p = false) ∧
      ((∃ t, Console.warn t ∈ (loadGitignore read).2) ↔ e.code ≠ "ENOENT".toList)) ∧
    ((∃ t, Console.warn t ∈ (loadGitignore read).2) ↔
      ∃ e, read = .error e ∧ e.code ≠ "ENOENT".toList) := by
  cases read with
  | ok content =>
    refine ⟨fun c hc => ?_, fun e he => (by cases he), ?_⟩
    · cases hc
      simp [loadGitignore]
    · simp [loadGitignore]
  | error e =>
    by_cases hcode : e.code = "ENOENT".toList
    · have hl := loadGitignore_enoent e hcode
      refine ⟨fun c hc => (by cases hc), fun e' he => ?_, ?_⟩
      · cases he
        rw [hl]
        exact ⟨rfl, hempty, by simp [hcode]⟩
      · rw [hl]
        constructor
        · rintro ⟨t, ht⟩
          simp at ht
        · rintro ⟨e', he, hne⟩
          cases he
          exact absurd hcode hne
    · have hl := loadGitignore_other e hcode
      refine ⟨fun c hc => (by cases hc), fun e' he => ?_, ?_⟩
      · cases he
        rw [hl]
        exact ⟨rfl, hempty, fun _ => hcode, fun _ => ⟨_, List.mem_singleton.mpr rfl⟩⟩
      · rw [hl]
        exact ⟨fun _ => ⟨e, rfl, hcode⟩, fun _ => ⟨_, List.mem_singleton.mpr rfl⟩⟩

/-- C18, at concrete inputs: a missing file gives no warning, a file that may not be read
gives one, and in both cases no path is ignored. -/
theorem C18_loadGitignore_witness :
    loadGitignore (.error ⟨"ENOENT".toList, "no such file".toList⟩) = ([], []) ∧
    (∃ t, Console.warn t
      ∈ (loadGitignore (.error ⟨"EACCES".toList, "permission denied".toList⟩)).2) ∧
    exampleIgnores (loadGitignore (.error ⟨"EACCES".toList, "permission denied".toList⟩)).1
      "debug.log".toList = false :=
  ⟨by decide,
   ((C18_loadGitignore exampleIgnores (fun _ => rfl)
      (.error ⟨"EACCES".toList, "permission denied".toList⟩)).2.1 _ rfl).2.2.mpr (by decide),
   ((C18_loadGitignore exampleIgnores (fun _ => rfl)
      (.error ⟨"EACCES".toList, "permission denied".toList⟩)).2.1 _ rfl).2.1 _⟩

/-- C19, at a failing input: with `--filter temp,cache` the entry `temp` is
traversal-skipped. `getAllFiles` returns the same list whether `fs.stat` accepts the
entry or not, but `generateTree`, which calls `fs.stat` before it asks whether the entry
is skipped, fails when the entry is a dangling link and returns when it is a
directory. -/
theorem C19_generateTree_stats_skipped_entry :
    shouldSkipTraversalWithFilters exampleConfig exampleLib
      (exampleLib.join ".".toList "temp".toList) noRules = .ok true ∧
    getAllFiles exampleConfig exampleLib noRules ".".toList
        (.dir [("temp".toList, .unstatable), ("a.txt".toList, .file 1)]) ⟨0, 0, [], []⟩
      = getAllFiles exampleConfig exampleLib noRules ".".toList
        (.dir [("temp".toList, .dir []), ("a.txt".toList, .file 1)]) ⟨0, 0, [], []⟩ ∧
    generateTree exampleConfig exampleLib noRules ".".toList []
        (.dir [("temp".toList, .dir []), ("a.txt".toList, .file 1)])
      = .ok "└── a.txt \n".toList ∧
    generateTree exampleConfig exampleLib noRules ".".toList []
        (.dir [("temp".toList, .unstatable), ("a.txt".toList, .file 1)])
      = .error (.stat "temp".toList) := by
  decide

/-- C20, at a failing input: the root directory is called `temp` and the filter is
`temp`. The ad hoc check accepts the joined path `temp/a.txt` and rejects the relative
path `a.txt`; the walk skips the file and returns nothing. -/
theorem C20_root_name_is_filtered :
    exampleLib.join tempRootConfig.folderPath "a.txt".toList = "temp/a.txt".toList ∧
    exampleLib.relative tempRootConfig.folderPath "temp/a.txt".toList = "a.txt".toList ∧
    hasAdditionalFilter tempRootConfig "temp/a.txt".toList = .ok true ∧
    hasAdditionalFilter tempRootConfig "a.txt".toList = .ok false ∧
    getAllFiles tempRootConfig exampleLib noRules tempRootConfig.folderPath
        (.dir [("a.txt".toList, .file 2)]) ⟨0, 0, [], []⟩
      = .ok ([], ⟨0, 0, [], []⟩) := by
  decide

end Contextify
